import Mathlib

/-!
# Adafruit_SharpMem: framebuffer and bit-serial protocol

A shallow embedding of `Adafruit_SharpMem.cpp`.

Conventions of the embedding.

* C `int` is taken to be 32 bits wide.  Every `int` expression of the driver has
  operands of 16-bit type, so its value is computed exactly in `Int`; the
  conversions back to `int16_t` / `uint16_t` / `uint8_t` on assignment are
  explicit (`toInt16`, `toUInt16`, `% 256`).
* Bytes are natural numbers; `|`, `&`, `<<`, `>>` are the `Nat` bit operations.
* `sharpmem_buffer` is `none` for the null pointer and `some bytes` for an
  allocated block.  An access outside the block is undefined behaviour of the C
  program and makes the operation return `none`.
* Every pin write (`digitalWrite`, `digitalWriteFast`) and every `pinMode` call
  is appended to the log `bus` of the state, in program order.
-/

/-- One call into the GPIO layer: a level written to a pin, or a pin switched
to output mode. -/
inductive PinEvent where
  | write (pin : Nat) (level : Bool)
  | mode (pin : Nat)
  deriving DecidableEq, Repr

/-- The driver object together with the global `sharpmem_buffer` and the log of
GPIO calls made so far. -/
structure Adafruit_SharpMem where
  /-- Member `uint8_t _clk`: clock pin number. -/
  _clk : Nat
  /-- Member `uint8_t _mosi`: data pin number. -/
  _mosi : Nat
  /-- Member `uint8_t _ss`: chip-select pin number. -/
  _ss : Nat
  /-- Member `const int16_t WIDTH` of the graphics base class: physical width. -/
  WIDTH : Int
  /-- Member `const int16_t HEIGHT` of the graphics base class: physical height. -/
  HEIGHT : Int
  /-- Member `int16_t _width` of the graphics base class: logical width. -/
  _width : Int
  /-- Member `int16_t _height` of the graphics base class: logical height. -/
  _height : Int
  /-- Member `uint8_t rotation` of the graphics base class. -/
  rotation : Nat
  /-- Member `uint8_t _sharpmem_vcom`: the stored polarity bit. -/
  _sharpmem_vcom : Nat
  /-- Global `byte *sharpmem_buffer`. -/
  sharpmem_buffer : Option (List Nat)
  /-- GPIO calls made so far, oldest first. -/
  bus : List PinEvent
  deriving DecidableEq, Repr

namespace Adafruit_SharpMem

/-! ## Constants and machine integers -/

def SHARPMEM_BIT_WRITECMD : Nat := 0x80
def SHARPMEM_BIT_VCOM : Nat := 0x40
def SHARPMEM_BIT_CLEAR : Nat := 0x20

def HIGH : Bool := true
def LOW : Bool := false

/-- Conversion of an `int` value to `int16_t`. -/
def toInt16 (n : Int) : Int := (n + 32768) % 65536 - 32768

/-- Conversion of an `int` value to `uint16_t`. -/
def toUInt16 (n : Int) : Int := n % 65536

/-- The table `set[]`. -/
def set : List Nat := [1, 2, 4, 8, 16, 32, 64, 128]

/-- The table `clr[]`: the `uint8_t` complements of the entries of `set[]`. -/
def clr : List Nat := [254, 253, 251, 247, 239, 223, 191, 127]

/-- The read `pgm_read_byte(&table[i])`. -/
def pgm_read_byte (table : List Nat) (i : Int) : Nat := table.getD i.toNat 0

/-- The `int` expression `(y * WIDTH + x) / 8`; C division truncates. -/
def byteIndex (s : Adafruit_SharpMem) (x y : Int) : Int := (y * s.WIDTH + x).tdiv 8

/-- The `int` expression `x & 7` (two's complement). -/
def bitIndex (x : Int) : Int := x % 8

/-- Read `sharpmem_buffer[i]`. -/
def readByte (s : Adafruit_SharpMem) (i : Int) : Option Nat :=
  match s.sharpmem_buffer with
  | none => none
  | some buf => if 0 ≤ i then buf[i.toNat]? else none

/-- The state in which the block behind `sharpmem_buffer` holds `bytes`. -/
def withBuffer (s : Adafruit_SharpMem) (bytes : List Nat) : Adafruit_SharpMem :=
  { s with sharpmem_buffer := some bytes }

/-- Store `b` into `sharpmem_buffer[i]`. -/
def writeByte (s : Adafruit_SharpMem) (i : Int) (b : Nat) : Option Adafruit_SharpMem :=
  match s.sharpmem_buffer with
  | none => none
  | some buf =>
    if 0 ≤ i ∧ i.toNat < buf.length then
      some (s.withBuffer (buf.set i.toNat b))
    else none

/-! ## Pixel access -/

/-- The `switch(rotation)` of `drawPixel`, on `int16_t` coordinates. -/
def rotateInt16 (s : Adafruit_SharpMem) (x y : Int) : Int × Int :=
  match s.rotation with
  | 1 =>
    let (x, y) := (y, x)
    (toInt16 (s.WIDTH - 1 - x), y)
  | 2 => (toInt16 (s.WIDTH - 1 - x), toInt16 (s.HEIGHT - 1 - y))
  | 3 =>
    let (x, y) := (y, x)
    (x, toInt16 (s.HEIGHT - 1 - y))
  | _ => (x, y)

/-- The `switch(rotation)` of `getPixel`, on `uint16_t` coordinates. -/
def rotateUInt16 (s : Adafruit_SharpMem) (x y : Int) : Int × Int :=
  match s.rotation with
  | 1 =>
    let (x, y) := (y, x)
    (toUInt16 (s.WIDTH - 1 - x), y)
  | 2 => (toUInt16 (s.WIDTH - 1 - x), toUInt16 (s.HEIGHT - 1 - y))
  | 3 =>
    let (x, y) := (y, x)
    (x, toUInt16 (s.HEIGHT - 1 - y))
  | _ => (x, y)

/-- Method `void drawPixel(int16_t x, int16_t y, uint16_t color)`. -/
def drawPixel (s : Adafruit_SharpMem) (x y : Int) (color : Nat) : Option Adafruit_SharpMem :=
  if x < 0 ∨ x ≥ s._width ∨ y < 0 ∨ y ≥ s._height then some s
  else
    let p := rotateInt16 s x y
    let i := byteIndex s p.1 p.2
    if color ≠ 0 then
      (readByte s i).bind fun b => writeByte s i (b ||| pgm_read_byte set (bitIndex p.1))
    else
      (readByte s i).bind fun b => writeByte s i (b &&& pgm_read_byte clr (bitIndex p.1))

/-- Method `uint8_t getPixel(uint16_t x, uint16_t y)`. -/
def getPixel (s : Adafruit_SharpMem) (x y : Int) : Option Nat :=
  if x ≥ s._width ∨ y ≥ s._height then some 0
  else
    let p := rotateUInt16 s x y
    (readByte s (byteIndex s p.1 p.2)).map fun b =>
      if b &&& pgm_read_byte set (bitIndex p.1) ≠ 0 then 1 else 0

/-! ## Bit-serial transmission -/

/-- The call `digitalWrite(pin, level)`: recorded in the log. -/
def digitalWrite (s : Adafruit_SharpMem) (pin : Nat) (level : Bool) : Adafruit_SharpMem :=
  { s with bus := s.bus ++ [PinEvent.write pin level] }

/-- The call `digitalWriteFast(pin, level)`: the same pin write through the fast
path. -/
def digitalWriteFast (s : Adafruit_SharpMem) (pin : Nat) (level : Bool) : Adafruit_SharpMem :=
  digitalWrite s pin level

/-- The call `pinMode(pin, OUTPUT)`: recorded in the log. -/
def pinMode (s : Adafruit_SharpMem) (pin : Nat) : Adafruit_SharpMem :=
  { s with bus := s.bus ++ [PinEvent.mode pin] }

/-- The `for` loop of `sendbyte` with `n` iterations left and the current value
of the `uint8_t` variable `data`. -/
def sendbyteLoop : Nat → Adafruit_SharpMem → Nat → Adafruit_SharpMem
  | 0, s, _ => s
  | n + 1, s, data =>
    let s := digitalWrite s s._clk LOW
    let s := if data &&& 0x80 ≠ 0 then digitalWrite s s._mosi HIGH
             else digitalWrite s s._mosi LOW
    let s := digitalWrite s s._clk HIGH
    sendbyteLoop n s ((data <<< 1) % 256)

/-- Method `void sendbyte(uint8_t data)`; the argument is converted to
`uint8_t`. -/
def sendbyte (s : Adafruit_SharpMem) (data : Nat) : Adafruit_SharpMem :=
  let s := sendbyteLoop 8 s (data % 256)
  digitalWrite s s._clk LOW

/-- The `for` loop of `sendbyteLSB` with `n` iterations left and the current
value of the `uint8_t` variable `data`. -/
def sendbyteLSBLoop : Nat → Adafruit_SharpMem → Nat → Adafruit_SharpMem
  | 0, s, _ => s
  | n + 1, s, data =>
    let s := digitalWrite s s._clk LOW
    let s := if data &&& 0x01 ≠ 0 then digitalWrite s s._mosi HIGH
             else digitalWrite s s._mosi LOW
    let s := digitalWrite s s._clk HIGH
    sendbyteLSBLoop n s (data >>> 1)

/-- Method `void sendbyteLSB(uint8_t data)`; the argument is converted to
`uint8_t`. -/
def sendbyteLSB (s : Adafruit_SharpMem) (data : Nat) : Adafruit_SharpMem :=
  let s := sendbyteLSBLoop 8 s (data % 256)
  digitalWrite s s._clk LOW

/-! ## Display operations -/

/-- The macro `TOGGLE_VCOM`. -/
def TOGGLE_VCOM (s : Adafruit_SharpMem) : Adafruit_SharpMem :=
  { s with _sharpmem_vcom := if s._sharpmem_vcom ≠ 0 then 0x00 else SHARPMEM_BIT_VCOM }

/-- The call `memset(sharpmem_buffer, c, n)` for the `int` value `n`. -/
def memset (s : Adafruit_SharpMem) (c : Nat) (n : Int) : Option Adafruit_SharpMem :=
  match s.sharpmem_buffer with
  | none => none
  | some buf =>
    if 0 ≤ n ∧ n.toNat ≤ buf.length then
      some (s.withBuffer (List.replicate n.toNat c ++ buf.drop n.toNat))
    else none

/-- Method `void clearDisplay()`. -/
def clearDisplay (s : Adafruit_SharpMem) : Option Adafruit_SharpMem :=
  (memset s 0xff ((s.WIDTH * s.HEIGHT).tdiv 8)).map fun s =>
    let s := digitalWriteFast s s._ss HIGH
    let s := sendbyte s (s._sharpmem_vcom ||| SHARPMEM_BIT_CLEAR)
    let s := sendbyteLSB s 0x00
    let s := TOGGLE_VCOM s
    digitalWriteFast s s._ss LOW

/-- The inner loop of `refresh` for row `i`: `n` iterations left, loop variable
`j`. -/
def refreshCols (i : Int) : Nat → Int → Adafruit_SharpMem → Option Adafruit_SharpMem
  | 0, _, s => some s
  | n + 1, j, s =>
    (readByte s (s.WIDTH.tdiv 8 * i + j)).bind fun data =>
      refreshCols i n (j + 1) (sendbyteLSB s data)

/-- The outer loop of `refresh`: `n` iterations left, loop variable `i`. -/
def refreshRows : Nat → Int → Adafruit_SharpMem → Option Adafruit_SharpMem
  | 0, _, s => some s
  | n + 1, i, s =>
    let current_line := ((i + 1) % 256).toNat
    let s := sendbyteLSB s current_line
    (refreshCols i (s.WIDTH.tdiv 8).toNat 0 s).bind fun s =>
      refreshRows n (i + 1) (sendbyte s 0x00)

/-- Method `void refresh()`. -/
def refresh (s : Adafruit_SharpMem) : Option Adafruit_SharpMem :=
  let s := digitalWriteFast s s._ss HIGH
  let s := sendbyte s (SHARPMEM_BIT_WRITECMD ||| s._sharpmem_vcom)
  let s := TOGGLE_VCOM s
  (refreshRows s.HEIGHT.toNat 0 s).map fun s =>
    let s := sendbyte s 0x00
    digitalWriteFast s s._ss LOW

/-- Modelled from the spec: `setRotation` of the graphics base class is not under
src/.  It selects the transform `r` and the logical extents, which are the
physical ones for rotations 0 and 2 and axis-swapped for rotations 1 and 3; it
touches neither the bus nor the buffer. -/
def setRotation (s : Adafruit_SharpMem) (r : Fin 4) : Adafruit_SharpMem :=
  if r.val % 2 = 0 then { s with rotation := r.val, _width := s.WIDTH, _height := s.HEIGHT }
  else { s with rotation := r.val, _width := s.HEIGHT, _height := s.WIDTH }

/-- Conversion of an `int` value to `size_t` (32 bits). -/
def toSizeT (n : Int) : Nat := (n % 4294967296).toNat

/-- Method `boolean begin(void)`.  `malloc` is the allocator of the environment:
for a request of `n` bytes it answers `none` (null pointer) or a block.  The
port registers cached under `USE_FAST_PINIO` are read nowhere in the file and
are left out. -/
def begin (s : Adafruit_SharpMem) (malloc : Nat → Option (List Nat)) :
    Bool × Adafruit_SharpMem :=
  let s := digitalWrite s s._ss HIGH
  let s := digitalWrite s s._clk LOW
  let s := digitalWrite s s._mosi HIGH
  let s := pinMode s s._ss
  let s := pinMode s s._clk
  let s := pinMode s s._mosi
  let s := { s with _sharpmem_vcom := SHARPMEM_BIT_VCOM }
  let s := { s with sharpmem_buffer := malloc (toSizeT ((s.WIDTH * s.HEIGHT).tdiv 8)) }
  if s.sharpmem_buffer.isNone then (false, s)
  else (true, setRotation s 0)

/-! ## Well-formed states and specification-side definitions -/

/-- The physical extents are positive values of type `int16_t`. -/
def PhysicalSize (s : Adafruit_SharpMem) : Prop :=
  0 < s.WIDTH ∧ s.WIDTH ≤ 32767 ∧ 0 < s.HEIGHT ∧ s.HEIGHT ≤ 32767

instance (s : Adafruit_SharpMem) : Decidable (PhysicalSize s) := by
  unfold PhysicalSize; infer_instance

/-- The relation between `rotation`, `_width` and `_height` that `setRotation`
establishes: the rotation is one of 0..3 and the logical extents are the
physical ones, axis-swapped for rotations 1 and 3. -/
def LogicalExtents (s : Adafruit_SharpMem) : Prop :=
  s.rotation < 4 ∧
  s._width = (if s.rotation % 2 = 0 then s.WIDTH else s.HEIGHT) ∧
  s._height = (if s.rotation % 2 = 0 then s.HEIGHT else s.WIDTH)

instance (s : Adafruit_SharpMem) : Decidable (LogicalExtents s) := by
  unfold LogicalExtents; infer_instance

/-- The buffer pointer is `buf` and the block has room for all `WIDTH * HEIGHT`
pixel bits. -/
def HoldsFrame (s : Adafruit_SharpMem) (buf : List Nat) : Prop :=
  s.sharpmem_buffer = some buf ∧ s.WIDTH * s.HEIGHT ≤ 8 * buf.length

instance (s : Adafruit_SharpMem) (buf : List Nat) : Decidable (HoldsFrame s buf) := by
  unfold HoldsFrame; infer_instance

/-- The buffer pointer is `buf` and the block has at least the
`(WIDTH * HEIGHT) / 8` bytes that `begin` requests. -/
def Allocated (s : Adafruit_SharpMem) (buf : List Nat) : Prop :=
  s.sharpmem_buffer = some buf ∧ s.WIDTH * s.HEIGHT / 8 ≤ buf.length

instance (s : Adafruit_SharpMem) (buf : List Nat) : Decidable (Allocated s buf) := by
  unfold Allocated; infer_instance

/-- The logical-to-physical transform as the specification words it (§4.1), for
physical extents `W`, `H` and rotation `r`. -/
def specTransform (W H : Int) (r : Nat) (x y : Int) : Int × Int :=
  match r with
  | 0 => (x, y)
  | 1 => (W - 1 - y, x)
  | 2 => (W - 1 - x, H - 1 - y)
  | _ => (y, H - 1 - x)

/-- The byte of the buffer that holds logical pixel `(x, y)`, in the words of
the specification: `(py * W + px) / 8` for the physical `(px, py)`. -/
def specByte (W H : Int) (r : Nat) (x y : Int) : Nat :=
  (((specTransform W H r x y).2 * W + (specTransform W H r x y).1) / 8).toNat

/-- The bit position of logical pixel `(x, y)` inside its byte: `px mod 8`. -/
def specBit (W H : Int) (r : Nat) (x y : Int) : Nat :=
  ((specTransform W H r x y).1 % 8).toNat

/-! ## Specification-side description of the wire traffic -/

/-- The state after the GPIO calls `es` have been made. -/
def emit (s : Adafruit_SharpMem) (es : List PinEvent) : Adafruit_SharpMem :=
  { s with bus := s.bus ++ es }

/-- The pin writes that clock out the data levels `bits`: for each bit, clock
low, data line to the bit, clock high. -/
def clockOut (clk mosi : Nat) (bits : List Bool) : List PinEvent :=
  bits.flatMap fun d => [PinEvent.write clk LOW, PinEvent.write mosi d, PinEvent.write clk HIGH]

/-- A byte on the wire with its bit order: most or least significant bit
first. -/
inductive WireByte where
  | msb (value : Nat)
  | lsb (value : Nat)
  deriving DecidableEq, Repr

/-- The value of a byte on the wire. -/
def WireByte.value : WireByte → Nat
  | .msb b => b
  | .lsb b => b

/-- The eight bits of a byte in the order they are sent. -/
def WireByte.bits : WireByte → List Bool
  | .msb b => (List.range 8).map fun k => b.testBit (7 - k)
  | .lsb b => (List.range 8).map fun k => b.testBit k

/-- The pin writes of one transmitted byte: eight clock pulses, then clock
low. -/
def wireByte (clk mosi : Nat) (w : WireByte) : List PinEvent :=
  clockOut clk mosi w.bits ++ [PinEvent.write clk LOW]

/-- The pin writes of a sequence of transmitted bytes. -/
def wireBytes (clk mosi : Nat) (ws : List WireByte) : List PinEvent :=
  ws.flatMap (wireByte clk mosi)

/-- The pin writes of one bus operation of state `s` that transmits `ws`: chip
select high, the bytes, chip select low. -/
def transaction (s : Adafruit_SharpMem) (ws : List WireByte) : List PinEvent :=
  [PinEvent.write s._ss HIGH] ++ wireBytes s._clk s._mosi ws ++ [PinEvent.write s._ss LOW]

/-- Row `i` of a refresh for a panel with `q` bytes per row, with the byte
values the specification lists (§4.3, step 4): the row address, the `q` buffer
bytes of the row in storage order, a zero trailer.  Each byte carries the bit
order in which the code sends it. -/
def specRow (q : Nat) (buf : List Nat) (i : Nat) : List WireByte :=
  WireByte.lsb ((i + 1) % 256) ::
    ((List.range q).map fun j => WireByte.lsb (buf.getD (q * i + j) 0)) ++ [WireByte.msb 0x00]

/-- The bytes of a refresh, with the values the specification lists (§4.3): the
command byte with the polarity bit, rows `0 .. H-1`, a final zero byte. -/
def specRefresh (W H : Int) (vcom : Nat) (buf : List Nat) : List WireByte :=
  WireByte.msb (0x80 ||| vcom) ::
    ((List.range H.toNat).flatMap fun i => specRow (W / 8).toNat buf i) ++ [WireByte.msb 0x00]

/-- The bytes of a clear, as the specification lists them. -/
def specClear (vcom : Nat) : List WireByte :=
  [WireByte.msb (0x20 ||| vcom), WireByte.lsb 0x00]

/-- The two bus operations of the driver. -/
inductive BusCall where
  | clearDisplay
  | refresh
  deriving DecidableEq, Repr

/-- Perform one bus operation. -/
def BusCall.run : BusCall → Adafruit_SharpMem → Option Adafruit_SharpMem
  | .clearDisplay, s => s.clearDisplay
  | .refresh, s => s.refresh

/-- Perform the calls in order.  For each call the result lists the pin events
the call appended to the log and the polarity bit stored when it returned. -/
def runCalls : List BusCall → Adafruit_SharpMem → Option (List (List PinEvent × Nat))
  | [], _ => some []
  | c :: cs, s =>
    (c.run s).bind fun s1 =>
      (runCalls cs s1).map fun rest => (s1.bus.drop s.bus.length, s1._sharpmem_vcom) :: rest

/-- What the display latches: the level of the data line at each rising edge of
the clock, given the current clock level `c` and data level `d`. -/
def risingEdgeData (clk mosi : Nat) : Bool → Bool → List PinEvent → List Bool
  | _, _, [] => []
  | c, d, PinEvent.mode _ :: es => risingEdgeData clk mosi c d es
  | c, d, PinEvent.write pin level :: es =>
    if pin = clk then
      if c = LOW ∧ level = HIGH then d :: risingEdgeData clk mosi level d es
      else risingEdgeData clk mosi level d es
    else if pin = mosi then risingEdgeData clk mosi c level es
    else risingEdgeData clk mosi c d es

/-- The number whose binary digits, most significant first, are `bits`. -/
def ofBitsMSB (bits : List Bool) : Nat :=
  bits.foldl (fun n b => 2 * n + b.toNat) 0

/-- The command byte of a bus operation: the first eight bits the display
latches, most significant first.  The clock is low when the operation starts. -/
def commandByte (clk mosi : Nat) (events : List PinEvent) : Nat :=
  ofBitsMSB ((risingEdgeData clk mosi LOW LOW events).take 8)

/-- The three signal lines are on different pins. -/
def DistinctPins (s : Adafruit_SharpMem) : Prop :=
  s._clk ≠ s._mosi ∧ s._ss ≠ s._clk ∧ s._ss ≠ s._mosi

instance (s : Adafruit_SharpMem) : Decidable (DistinctPins s) := by
  unfold DistinctPins; infer_instance

/-- A state in which the bus operations are defined: positive physical extents,
three different pins, an allocated buffer, and a polarity value of `0x00` or
`SHARPMEM_BIT_VCOM`. -/
def Ready (s : Adafruit_SharpMem) : Prop :=
  PhysicalSize s ∧ DistinctPins s ∧ (∃ buf, Allocated s buf) ∧
  (s._sharpmem_vcom = 0x00 ∨ s._sharpmem_vcom = SHARPMEM_BIT_VCOM)

/-- The macro `TOGGLE_VCOM` on the polarity value alone. -/
def toggled (vcom : Nat) : Nat := if vcom ≠ 0 then 0x00 else SHARPMEM_BIT_VCOM

/-- A driver on pins 13 (clock), 11 (data) and 10 (chip select) with physical
extents `W`, `H`, rotation `r` with its logical extents, polarity bit set,
buffer pointer `buf` and an empty log. -/
def sample (W H : Int) (r : Nat) (buf : Option (List Nat)) : Adafruit_SharpMem :=
  { _clk := 13, _mosi := 11, _ss := 10, WIDTH := W, HEIGHT := H,
    _width := if r % 2 = 0 then W else H, _height := if r % 2 = 0 then H else W,
    rotation := r, _sharpmem_vcom := SHARPMEM_BIT_VCOM, sharpmem_buffer := buf, bus := [] }

/-- The byte whose bit `7 - k` is bit `k` of `b`, for `k = 0 .. 7`. -/
def bitReverse8 (b : Nat) : Nat := ofBitsMSB ((List.range 8).map fun k => b.testBit k)

/-- The number of level writes to `pin` among the events. -/
def writesTo (pin : Nat) : List PinEvent → Nat
  | [] => 0
  | PinEvent.mode _ :: es => writesTo pin es
  | PinEvent.write p _ :: es => if p = pin then writesTo pin es + 1 else writesTo pin es

/-- Every level write to a pin other than `ss` happens while the last level
written to `ss` is high; `sel` is the level of `ss` before the events. -/
def whileSelected (ss : Nat) : Bool → List PinEvent → Bool
  | _, [] => true
  | sel, PinEvent.mode _ :: es => whileSelected ss sel es
  | sel, PinEvent.write p level :: es =>
    if p = ss then whileSelected ss level es else sel && whileSelected ss sel es

/-- The byte sequence of a refresh in the words of the specification (§4.3,
steps 2, 4 and 5): `transmitMSB(WRITE_COMMAND | vcomBit)`; for each row `i`
from 0 to `height - 1`, `transmitLSB(i + 1)`, `transmitLSB(byte)` for each of
the `width / 8` packed bytes of the row in storage order, `transmitLSB(0x00)`;
after all rows `transmitMSB(0x00)`. -/
def specRefreshSteps (W H : Int) (vcom : Nat) (buf : List Nat) : List WireByte :=
  [WireByte.msb (SHARPMEM_BIT_WRITECMD ||| vcom)] ++
    ((List.range H.toNat).flatMap fun i =>
      [WireByte.lsb (i + 1)] ++
        ((List.range (W / 8).toNat).map fun j =>
          WireByte.lsb (buf.getD ((W / 8).toNat * i + j) 0)) ++
        [WireByte.lsb 0x00]) ++
    [WireByte.msb 0x00]

/-- The data bytes of row `i` of a refresh for a panel with `q` bytes per row:
the `q` buffer bytes of the row in storage order, each sent least significant
bit first. -/
def rowData (q : Nat) (buf : List Nat) (i : Nat) : List WireByte :=
  (List.range q).map fun j => WireByte.lsb (buf.getD (q * i + j) 0)

/-- A call of one of the four public operations of the driver. -/
inductive Call where
  | drawPixel (x y : Int) (color : Nat)
  | getPixel (x y : Int)
  | clearDisplay
  | refresh
  deriving DecidableEq, Repr

/-- Perform one call.  `getPixel` returns a value and leaves the state as it
is. -/
def Call.run : Call → Adafruit_SharpMem → Option Adafruit_SharpMem
  | .drawPixel x y color, s => s.drawPixel x y color
  | .getPixel x y, s => (s.getPixel x y).map fun _ => s
  | .clearDisplay, s => s.clearDisplay
  | .refresh, s => s.refresh

/-- Perform the calls in order. -/
def runAll : List Call → Adafruit_SharpMem → Option Adafruit_SharpMem
  | [], s => some s
  | c :: cs, s => (c.run s).bind (runAll cs)

end Adafruit_SharpMem

namespace Adafruit_SharpMem

/-! ## Lemmas on the rotation transform and the byte addressing -/

theorem setRotation_logicalExtents (s : Adafruit_SharpMem) (r : Fin 4) :
    LogicalExtents (setRotation s r) := by
  unfold setRotation LogicalExtents
  split <;> simp_all [r.isLt]

theorem rotate_eq_specTransform (s : Adafruit_SharpMem) (x y : Int)
    (hsize : PhysicalSize s) (hrot : LogicalExtents s)
    (hx : 0 ≤ x ∧ x < s._width) (hy : 0 ≤ y ∧ y < s._height) :
    rotateInt16 s x y = specTransform s.WIDTH s.HEIGHT s.rotation x y ∧
    rotateUInt16 s x y = specTransform s.WIDTH s.HEIGHT s.rotation x y ∧
    0 ≤ (specTransform s.WIDTH s.HEIGHT s.rotation x y).1 ∧
    (specTransform s.WIDTH s.HEIGHT s.rotation x y).1 < s.WIDTH ∧
    0 ≤ (specTransform s.WIDTH s.HEIGHT s.rotation x y).2 ∧
    (specTransform s.WIDTH s.HEIGHT s.rotation x y).2 < s.HEIGHT := by
  obtain ⟨clk, mosi, ss, W, H, w, h, r, vcom, buf, bus⟩ := s
  obtain ⟨hW0, hW1, hH0, hH1⟩ := hsize
  obtain ⟨hr, hw, hh⟩ := hrot
  simp only at hW0 hW1 hH0 hH1 hr hw hh hx hy
  subst hw hh
  rcases r with _ | _ | _ | _ | r
  · simp [rotateInt16, rotateUInt16, specTransform] at hx hy ⊢
    omega
  · simp [rotateInt16, rotateUInt16, specTransform, toInt16, toUInt16] at hx hy ⊢
    omega
  · simp [rotateInt16, rotateUInt16, specTransform, toInt16, toUInt16] at hx hy ⊢
    omega
  · simp [rotateInt16, rotateUInt16, specTransform, toInt16, toUInt16] at hx hy ⊢
    omega
  · omega

theorem and_two_pow_ne_zero (b k : Nat) : b &&& 2 ^ k ≠ 0 ↔ b.testBit k = true := by
  constructor
  · intro h
    by_contra hb
    apply h
    apply Nat.eq_of_testBit_eq
    intro j
    simp only [Nat.testBit_and, Nat.testBit_two_pow, Nat.zero_testBit]
    by_cases hkj : k = j
    · subst hkj; simp [hb]
    · simp [hkj]
  · intro hb h0
    have h1 := congrArg (fun n => Nat.testBit n k) h0
    simp [hb, Nat.testBit_two_pow_self] at h1

theorem testBit_clr_mask (k j : Nat) (hk : k < 8) (hj : j < 8) :
    (255 - 2 ^ k).testBit j = decide (j ≠ k) := by
  interval_cases k <;> interval_cases j <;> rfl

theorem pgm_read_byte_set (k : Int) (h0 : 0 ≤ k) (h8 : k < 8) :
    pgm_read_byte set k = 2 ^ k.toNat := by
  obtain ⟨n, rfl⟩ := Int.eq_ofNat_of_zero_le h0
  have hn : n < 8 := by omega
  simp only [pgm_read_byte, Int.toNat_ofNat]
  interval_cases n <;> rfl

theorem pgm_read_byte_clr (k : Int) (h0 : 0 ≤ k) (h8 : k < 8) :
    pgm_read_byte clr k = 255 - 2 ^ k.toNat := by
  obtain ⟨n, rfl⟩ := Int.eq_ofNat_of_zero_le h0
  have hn : n < 8 := by omega
  simp only [pgm_read_byte, Int.toNat_ofNat]
  interval_cases n <;> rfl

theorem byteIndex_in_frame (W H px py : Int) (len : Nat)
    (hpx : 0 ≤ px ∧ px < W) (hpy : 0 ≤ py ∧ py < H) (hlen : W * H ≤ 8 * len) :
    (py * W + px).tdiv 8 = (py * W + px) / 8 ∧ 0 ≤ (py * W + px) / 8 ∧
    ((py * W + px) / 8).toNat < len := by
  have hW : 0 ≤ W := by omega
  have h1 : 0 ≤ py * W := Int.mul_nonneg hpy.1 hW
  have h2 : py * W ≤ (H - 1) * W := Int.mul_le_mul_of_nonneg_right (by omega) hW
  have h3 : (H - 1) * W = W * H - W := by ring
  refine ⟨Int.tdiv_eq_ediv (by omega) (by omega), by omega, ?_⟩
  omega

/-- What `drawPixel` and `getPixel` do at an in-range logical coordinate: both
address byte `specByte` and bit `specBit` of the buffer. -/
theorem pixel_access (s : Adafruit_SharpMem) (buf : List Nat) (x y : Int) (v : Nat)
    (hsize : PhysicalSize s) (hrot : LogicalExtents s) (hbuf : HoldsFrame s buf)
    (hx : 0 ≤ x ∧ x < s._width) (hy : 0 ≤ y ∧ y < s._height) :
    ∃ b, buf[specByte s.WIDTH s.HEIGHT s.rotation x y]? = some b ∧
      specByte s.WIDTH s.HEIGHT s.rotation x y < buf.length ∧
      specBit s.WIDTH s.HEIGHT s.rotation x y < 8 ∧
      drawPixel s x y v = some (s.withBuffer
        (buf.set (specByte s.WIDTH s.HEIGHT s.rotation x y)
          (if v ≠ 0 then b ||| 2 ^ specBit s.WIDTH s.HEIGHT s.rotation x y
           else b &&& (255 - 2 ^ specBit s.WIDTH s.HEIGHT s.rotation x y)))) ∧
      getPixel s x y =
        some (if b &&& 2 ^ specBit s.WIDTH s.HEIGHT s.rotation x y ≠ 0 then 1 else 0) := by
  obtain ⟨h16, hu16, hp1, hp2, hp3, hp4⟩ := rotate_eq_specTransform s x y hsize hrot hx hy
  obtain ⟨hb, hlen⟩ := hbuf
  obtain ⟨hdiv, hnn, hlt⟩ := byteIndex_in_frame s.WIDTH s.HEIGHT _ _ buf.length
    ⟨hp1, hp2⟩ ⟨hp3, hp4⟩ hlen
  have hk0 : 0 ≤ (specTransform s.WIDTH s.HEIGHT s.rotation x y).1 % 8 := by omega
  have hk8 : (specTransform s.WIDTH s.HEIGHT s.rotation x y).1 % 8 < 8 := by omega
  have hget : buf[specByte s.WIDTH s.HEIGHT s.rotation x y]?
      = some (buf[specByte s.WIDTH s.HEIGHT s.rotation x y]) := List.getElem?_eq_getElem hlt
  refine ⟨buf[specByte s.WIDTH s.HEIGHT s.rotation x y], hget, hlt, ?_, ?_, ?_⟩
  · unfold specBit; omega
  · have hc : ¬ (x < 0 ∨ x ≥ s._width ∨ y < 0 ∨ y ≥ s._height) := by omega
    unfold drawPixel
    rw [if_neg hc]
    simp only [h16, byteIndex, bitIndex, hdiv, readByte, writeByte, hb, if_pos hnn,
      pgm_read_byte_set _ hk0 hk8, pgm_read_byte_clr _ hk0 hk8]
    unfold specByte specBit at *
    split <;> simp [hget, hnn, hlt]
  · have hc : ¬ (x ≥ s._width ∨ y ≥ s._height) := by omega
    unfold getPixel
    rw [if_neg hc]
    simp only [hu16, byteIndex, bitIndex, hdiv, readByte, hb, if_pos hnn,
      pgm_read_byte_set _ hk0 hk8]
    unfold specByte specBit at *
    simp [hget]

/-! ## Lemmas on the bit-serial transmission -/

theorem emit_nil (s : Adafruit_SharpMem) : s.emit [] = s := by
  cases s; simp [emit]

theorem emit_emit (s : Adafruit_SharpMem) (a b : List PinEvent) :
    (s.emit a).emit b = s.emit (a ++ b) := by
  simp [emit, List.append_assoc]

theorem digitalWrite_eq_emit (s : Adafruit_SharpMem) (pin : Nat) (level : Bool) :
    digitalWrite s pin level = s.emit [PinEvent.write pin level] := rfl

theorem emit_clk (s : Adafruit_SharpMem) (es : List PinEvent) : (s.emit es)._clk = s._clk := rfl

theorem emit_mosi (s : Adafruit_SharpMem) (es : List PinEvent) :
    (s.emit es)._mosi = s._mosi := rfl

theorem ite_digitalWrite (c : Prop) [Decidable c] (s : Adafruit_SharpMem) (pin : Nat) :
    (if c then digitalWrite s pin HIGH else digitalWrite s pin LOW)
      = digitalWrite s pin (decide c) := by
  split <;> simp [HIGH, LOW, *]

theorem flatMap_range_succ {α : Type} (f : Nat → List α) (n : Nat) :
    (List.range (n + 1)).flatMap f = f 0 ++ (List.range n).flatMap fun m => f (m + 1) := by
  rw [List.range_succ_eq_map, List.flatMap_cons, List.flatMap_map]

theorem sendbyteLoop_eq (n : Nat) (hn : n ≤ 8) : ∀ (s : Adafruit_SharpMem) (d : Nat),
    sendbyteLoop n s d =
      s.emit (clockOut s._clk s._mosi ((List.range n).map fun k => d.testBit (7 - k))) := by
  induction n with
  | zero => intro s d; simp [sendbyteLoop, clockOut, emit_nil]
  | succ n ih =>
    intro s d
    have hbit : decide (d &&& 0x80 ≠ 0) = d.testBit 7 := by
      rw [Bool.eq_iff_iff]
      simpa using and_two_pow_ne_zero d 7
    have hshift : ∀ k ∈ List.range n,
        ((d <<< 1) % 256).testBit (7 - k) = d.testBit (7 - (k + 1)) := by
      intro k hk
      have hk1 : k < n := List.mem_range.1 hk
      rw [show (256 : Nat) = 2 ^ 8 from rfl, Nat.testBit_mod_two_pow, Nat.testBit_shiftLeft]
      have h1 : 7 - k < 8 := by omega
      have h2 : 7 - k ≥ 1 := by omega
      have h3 : 7 - k - 1 = 7 - (k + 1) := by omega
      simp [h1, h2, h3]
    rw [sendbyteLoop]
    simp only [ite_digitalWrite]
    simp only [digitalWrite_eq_emit, emit_emit]
    rw [ih (by omega)]
    simp only [emit_emit, emit_clk, emit_mosi, hbit, List.map_congr_left hshift]
    rw [List.range_succ_eq_map]
    simp [clockOut, List.map_map, Function.comp_def]

theorem sendbyteLSBLoop_eq (n : Nat) : ∀ (s : Adafruit_SharpMem) (d : Nat),
    sendbyteLSBLoop n s d =
      s.emit (clockOut s._clk s._mosi ((List.range n).map fun k => d.testBit k)) := by
  induction n with
  | zero => intro s d; simp [sendbyteLSBLoop, clockOut, emit_nil]
  | succ n ih =>
    intro s d
    have hbit : decide (d &&& 0x01 ≠ 0) = d.testBit 0 := by
      rw [Bool.eq_iff_iff]
      simp
    have hshift : ∀ k ∈ List.range n, (d >>> 1).testBit k = d.testBit (k + 1) := by
      intro k _
      rw [Nat.testBit_shiftRight, Nat.add_comm]
    rw [sendbyteLSBLoop]
    simp only [ite_digitalWrite]
    simp only [digitalWrite_eq_emit, emit_emit]
    rw [ih]
    simp only [emit_emit, emit_clk, emit_mosi, hbit, List.map_congr_left hshift]
    rw [List.range_succ_eq_map]
    simp [clockOut, List.map_map, Function.comp_def]

theorem sendbyte_eq (s : Adafruit_SharpMem) (b : Nat) :
    sendbyte s b = s.emit (wireByte s._clk s._mosi (WireByte.msb b)) := by
  have hmod : ∀ k ∈ List.range 8, (b % 256).testBit (7 - k) = b.testBit (7 - k) := by
    intro k _
    rw [show (256 : Nat) = 2 ^ 8 from rfl, Nat.testBit_mod_two_pow]
    have h1 : 7 - k < 8 := by omega
    simp [h1]
  unfold sendbyte
  simp only [sendbyteLoop_eq 8 (Nat.le_refl 8), digitalWrite_eq_emit, emit_emit, emit_clk,
    List.map_congr_left hmod]
  rfl

theorem sendbyteLSB_eq (s : Adafruit_SharpMem) (b : Nat) :
    sendbyteLSB s b = s.emit (wireByte s._clk s._mosi (WireByte.lsb b)) := by
  have hmod : ∀ k ∈ List.range 8, (b % 256).testBit k = b.testBit k := by
    intro k hk
    have h1 : k < 8 := List.mem_range.1 hk
    rw [show (256 : Nat) = 2 ^ 8 from rfl, Nat.testBit_mod_two_pow]
    simp [h1]
  unfold sendbyteLSB
  simp only [sendbyteLSBLoop_eq, digitalWrite_eq_emit, emit_emit, emit_clk,
    List.map_congr_left hmod]
  rfl

/-! ## Lemmas on `clearDisplay` and `refresh` -/

theorem wireBytes_cons (clk mosi : Nat) (w : WireByte) (ws : List WireByte) :
    wireBytes clk mosi (w :: ws) = wireByte clk mosi w ++ wireBytes clk mosi ws := by
  simp [wireBytes]

theorem wireBytes_append (clk mosi : Nat) (ws ws1 : List WireByte) :
    wireBytes clk mosi (ws ++ ws1) = wireBytes clk mosi ws ++ wireBytes clk mosi ws1 := by
  simp [wireBytes]

theorem readByte_emit (s : Adafruit_SharpMem) (es : List PinEvent) (buf : List Nat) (k : Nat)
    (hb : s.sharpmem_buffer = some buf) (hk : k < buf.length) :
    readByte (s.emit es) (k : Int) = some (buf.getD k 0) := by
  have h1 : (s.emit es).sharpmem_buffer = some buf := hb
  simp [readByte, h1, List.getD_eq_getElem?_getD, List.getElem?_eq_getElem hk]

theorem refreshCols_eq (s : Adafruit_SharpMem) (buf : List Nat) (i : Nat)
    (hb : s.sharpmem_buffer = some buf) (hW : 0 ≤ s.WIDTH) :
    ∀ (n j : Nat) (es : List PinEvent), (s.WIDTH / 8).toNat * i + j + n ≤ buf.length →
      refreshCols (i : Int) n (j : Int) (s.emit es) =
        some (s.emit (es ++ wireBytes s._clk s._mosi ((List.range n).map fun m =>
          WireByte.lsb (buf.getD ((s.WIDTH / 8).toNat * i + (j + m)) 0)))) := by
  intro n
  induction n with
  | zero => intro j es _; simp [refreshCols, wireBytes]
  | succ n ih =>
    intro j es hlen
    have hq : (s.emit es).WIDTH.tdiv 8 = (((s.WIDTH / 8).toNat : Nat) : Int) := by
      show s.WIDTH.tdiv 8 = _
      rw [Int.tdiv_eq_ediv hW (by omega), Int.toNat_of_nonneg (by omega)]
    have hidx : (s.emit es).WIDTH.tdiv 8 * (i : Int) + (j : Int)
        = (((s.WIDTH / 8).toNat * i + j : Nat) : Int) := by
      rw [hq]; push_cast; rfl
    rw [refreshCols, hidx, readByte_emit s es buf _ hb (by omega)]
    simp only [Option.some_bind, sendbyteLSB_eq, emit_emit, emit_clk, emit_mosi]
    have h1 := ih (j + 1) (es ++ wireByte s._clk s._mosi
      (WireByte.lsb (buf.getD ((s.WIDTH / 8).toNat * i + j) 0))) (by omega)
    push_cast at h1
    rw [h1, List.range_succ_eq_map]
    simp [wireBytes_cons, List.map_map, Function.comp_def, Nat.add_assoc, Nat.add_comm 1]

theorem refreshRows_eq (s : Adafruit_SharpMem) (buf : List Nat)
    (hb : s.sharpmem_buffer = some buf) (hW : 0 ≤ s.WIDTH) :
    ∀ (n i : Nat) (es : List PinEvent), (s.WIDTH / 8).toNat * (i + n) ≤ buf.length →
      refreshRows n (i : Int) (s.emit es) =
        some (s.emit (es ++ wireBytes s._clk s._mosi ((List.range n).flatMap fun m =>
          specRow (s.WIDTH / 8).toNat buf (i + m)))) := by
  intro n
  induction n with
  | zero => intro i es _; simp [refreshRows, wireBytes]
  | succ n ih =>
    intro i es hlen
    have hline : (((i : Int) + 1) % 256).toNat = (i + 1) % 256 := by omega
    have hq : ∀ es1, ((s.emit es1).WIDTH.tdiv 8).toNat = (s.WIDTH / 8).toNat := by
      intro es1
      show (s.WIDTH.tdiv 8).toNat = _
      rw [Int.tdiv_eq_ediv hW (by omega)]
    have hrow : (s.WIDTH / 8).toNat * i + 0 + (s.WIDTH / 8).toNat ≤ buf.length := by
      have h1 : (s.WIDTH / 8).toNat * (i + 1) ≤ (s.WIDTH / 8).toNat * (i + (n + 1)) :=
        Nat.mul_le_mul_left _ (by omega)
      have h2 : (s.WIDTH / 8).toNat * (i + 1) = (s.WIDTH / 8).toNat * i + (s.WIDTH / 8).toNat := by
        ring
      omega
    have hcols := refreshCols_eq s buf i hb hW (s.WIDTH / 8).toNat 0
      (es ++ wireByte s._clk s._mosi (WireByte.lsb ((i + 1) % 256))) hrow
    have hrest := ih (i + 1) (es ++ wireByte s._clk s._mosi (WireByte.lsb ((i + 1) % 256)) ++
      wireBytes s._clk s._mosi ((List.range (s.WIDTH / 8).toNat).map fun m =>
        WireByte.lsb (buf.getD ((s.WIDTH / 8).toNat * i + (0 + m)) 0)) ++
      wireByte s._clk s._mosi (WireByte.msb 0x00)) (by
        have h3 : i + 1 + n = i + (n + 1) := by omega
        rw [h3]; exact hlen)
    push_cast at hcols hrest
    rw [refreshRows]
    simp only [hline, sendbyteLSB_eq, emit_emit, emit_clk, emit_mosi, hq, hcols,
      Option.some_bind, sendbyte_eq, hrest]
    rw [flatMap_range_succ]
    simp [wireBytes_append, wireBytes_cons, specRow, wireBytes, Nat.add_assoc, Nat.add_comm 1]

@[simp] theorem emit_proj_clk (s : Adafruit_SharpMem) (es : List PinEvent) :
    (s.emit es)._clk = s._clk := rfl

@[simp] theorem TOGGLE_VCOM_proj_clk (s : Adafruit_SharpMem) :
    (TOGGLE_VCOM s)._clk = s._clk := rfl

@[simp] theorem withBuffer_proj_clk (s : Adafruit_SharpMem) (bytes : List Nat) :
    (s.withBuffer bytes)._clk = s._clk := rfl

@[simp] theorem emit_proj_mosi (s : Adafruit_SharpMem) (es : List PinEvent) :
    (s.emit es)._mosi = s._mosi := rfl

@[simp] theorem TOGGLE_VCOM_proj_mosi (s : Adafruit_SharpMem) :
    (TOGGLE_VCOM s)._mosi = s._mosi := rfl

@[simp] theorem withBuffer_proj_mosi (s : Adafruit_SharpMem) (bytes : List Nat) :
    (s.withBuffer bytes)._mosi = s._mosi := rfl

@[simp] theorem emit_proj_ss (s : Adafruit_SharpMem) (es : List PinEvent) :
    (s.emit es)._ss = s._ss := rfl

@[simp] theorem TOGGLE_VCOM_proj_ss (s : Adafruit_SharpMem) :
    (TOGGLE_VCOM s)._ss = s._ss := rfl

@[simp] theorem withBuffer_proj_ss (s : Adafruit_SharpMem) (bytes : List Nat) :
    (s.withBuffer bytes)._ss = s._ss := rfl

@[simp] theorem emit_proj_WIDTH (s : Adafruit_SharpMem) (es : List PinEvent) :
    (s.emit es).WIDTH = s.WIDTH := rfl

@[simp] theorem TOGGLE_VCOM_proj_WIDTH (s : Adafruit_SharpMem) :
    (TOGGLE_VCOM s).WIDTH = s.WIDTH := rfl

@[simp] theorem withBuffer_proj_WIDTH (s : Adafruit_SharpMem) (bytes : List Nat) :
    (s.withBuffer bytes).WIDTH = s.WIDTH := rfl

@[simp] theorem emit_proj_HEIGHT (s : Adafruit_SharpMem) (es : List PinEvent) :
    (s.emit es).HEIGHT = s.HEIGHT := rfl

@[simp] theorem TOGGLE_VCOM_proj_HEIGHT (s : Adafruit_SharpMem) :
    (TOGGLE_VCOM s).HEIGHT = s.HEIGHT := rfl

@[simp] theorem withBuffer_proj_HEIGHT (s : Adafruit_SharpMem) (bytes : List Nat) :
    (s.withBuffer bytes).HEIGHT = s.HEIGHT := rfl

@[simp] theorem emit_proj_width (s : Adafruit_SharpMem) (es : List PinEvent) :
    (s.emit es)._width = s._width := rfl

@[simp] theorem TOGGLE_VCOM_proj_width (s : Adafruit_SharpMem) :
    (TOGGLE_VCOM s)._width = s._width := rfl

@[simp] theorem withBuffer_proj_width (s : Adafruit_SharpMem) (bytes : List Nat) :
    (s.withBuffer bytes)._width = s._width := rfl

@[simp] theorem emit_proj_height (s : Adafruit_SharpMem) (es : List PinEvent) :
    (s.emit es)._height = s._height := rfl

@[simp] theorem TOGGLE_VCOM_proj_height (s : Adafruit_SharpMem) :
    (TOGGLE_VCOM s)._height = s._height := rfl

@[simp] theorem withBuffer_proj_height (s : Adafruit_SharpMem) (bytes : List Nat) :
    (s.withBuffer bytes)._height = s._height := rfl

@[simp] theorem emit_proj_rotation (s : Adafruit_SharpMem) (es : List PinEvent) :
    (s.emit es).rotation = s.rotation := rfl

@[simp] theorem TOGGLE_VCOM_proj_rotation (s : Adafruit_SharpMem) :
    (TOGGLE_VCOM s).rotation = s.rotation := rfl

@[simp] theorem withBuffer_proj_rotation (s : Adafruit_SharpMem) (bytes : List Nat) :
    (s.withBuffer bytes).rotation = s.rotation := rfl

@[simp] theorem emit_proj_vcom (s : Adafruit_SharpMem) (es : List PinEvent) :
    (s.emit es)._sharpmem_vcom = s._sharpmem_vcom := rfl

@[simp] theorem emit_proj_buffer (s : Adafruit_SharpMem) (es : List PinEvent) :
    (s.emit es).sharpmem_buffer = s.sharpmem_buffer := rfl

@[simp] theorem emit_proj_bus (s : Adafruit_SharpMem) (es : List PinEvent) :
    (s.emit es).bus = s.bus ++ es := rfl

@[simp] theorem TOGGLE_VCOM_proj_vcom (s : Adafruit_SharpMem) :
    (TOGGLE_VCOM s)._sharpmem_vcom = if s._sharpmem_vcom ≠ 0 then 0x00 else SHARPMEM_BIT_VCOM :=
  rfl

@[simp] theorem TOGGLE_VCOM_proj_buffer (s : Adafruit_SharpMem) :
    (TOGGLE_VCOM s).sharpmem_buffer = s.sharpmem_buffer := rfl

@[simp] theorem TOGGLE_VCOM_proj_bus (s : Adafruit_SharpMem) : (TOGGLE_VCOM s).bus = s.bus := rfl

@[simp] theorem withBuffer_proj_vcom (s : Adafruit_SharpMem) (bytes : List Nat) :
    (s.withBuffer bytes)._sharpmem_vcom = s._sharpmem_vcom := rfl

@[simp] theorem withBuffer_proj_buffer (s : Adafruit_SharpMem) (bytes : List Nat) :
    (s.withBuffer bytes).sharpmem_buffer = some bytes := rfl

@[simp] theorem withBuffer_proj_bus (s : Adafruit_SharpMem) (bytes : List Nat) :
    (s.withBuffer bytes).bus = s.bus := rfl

theorem TOGGLE_VCOM_withBuffer (s : Adafruit_SharpMem) (bytes : List Nat) :
    TOGGLE_VCOM (s.withBuffer bytes) = (TOGGLE_VCOM s).withBuffer bytes := rfl

theorem TOGGLE_VCOM_emit (s : Adafruit_SharpMem) (es : List PinEvent) :
    TOGGLE_VCOM (s.emit es) = (TOGGLE_VCOM s).emit es := rfl

/-- The state that `refresh` returns when every byte it reads lies inside the
block. -/
theorem refresh_eq (s : Adafruit_SharpMem) (buf : List Nat)
    (hb : s.sharpmem_buffer = some buf) (hW : 0 ≤ s.WIDTH)
    (hlen : (s.WIDTH / 8).toNat * s.HEIGHT.toNat ≤ buf.length) :
    refresh s = some ((TOGGLE_VCOM s).emit
      (transaction s (specRefresh s.WIDTH s.HEIGHT s._sharpmem_vcom buf))) := by
  have hrows := refreshRows_eq (TOGGLE_VCOM s) buf hb hW s.HEIGHT.toNat 0
    ([PinEvent.write s._ss HIGH] ++
      wireByte s._clk s._mosi (WireByte.msb (SHARPMEM_BIT_WRITECMD ||| s._sharpmem_vcom)))
    (by rw [Nat.zero_add]; exact hlen)
  simp only [TOGGLE_VCOM_proj_clk, TOGGLE_VCOM_proj_mosi, TOGGLE_VCOM_proj_WIDTH] at hrows
  rw [show ((0 : Nat) : Int) = 0 from rfl] at hrows
  unfold refresh
  simp only [digitalWriteFast, digitalWrite_eq_emit, sendbyte_eq, emit_emit, emit_proj_clk,
    emit_proj_mosi, emit_proj_ss, emit_proj_HEIGHT, emit_proj_vcom, TOGGLE_VCOM_emit,
    TOGGLE_VCOM_proj_HEIGHT, hrows, Option.map_some']
  simp [transaction, specRefresh, wireBytes_cons, wireBytes_append, SHARPMEM_BIT_WRITECMD,
    emit_emit, wireBytes]

theorem memset_eq (s : Adafruit_SharpMem) (buf : List Nat) (c : Nat) (n : Int)
    (hb : s.sharpmem_buffer = some buf) (hn : 0 ≤ n) (hlen : n.toNat ≤ buf.length) :
    memset s c n = some (s.withBuffer (List.replicate n.toNat c ++ buf.drop n.toNat)) := by
  simp [memset, hb, hn, hlen]

/-- The state that `clearDisplay` returns when the `memset` stays inside the
block. -/
theorem clearDisplay_eq (s : Adafruit_SharpMem) (buf : List Nat)
    (hb : s.sharpmem_buffer = some buf) (hn : 0 ≤ (s.WIDTH * s.HEIGHT).tdiv 8)
    (hlen : ((s.WIDTH * s.HEIGHT).tdiv 8).toNat ≤ buf.length) :
    clearDisplay s = some ((TOGGLE_VCOM (s.withBuffer
      (List.replicate ((s.WIDTH * s.HEIGHT).tdiv 8).toNat 0xff ++
        buf.drop ((s.WIDTH * s.HEIGHT).tdiv 8).toNat))).emit
      (transaction s (specClear s._sharpmem_vcom))) := by
  unfold clearDisplay
  rw [memset_eq s buf _ _ hb hn hlen]
  simp only [Option.map_some', digitalWriteFast, digitalWrite_eq_emit, sendbyte_eq,
    sendbyteLSB_eq, emit_emit, emit_proj_clk, emit_proj_mosi, emit_proj_ss, emit_proj_vcom,
    withBuffer_proj_clk, withBuffer_proj_mosi, withBuffer_proj_ss, withBuffer_proj_vcom,
    TOGGLE_VCOM_emit]
  simp [transaction, specClear, wireBytes, SHARPMEM_BIT_CLEAR, Nat.lor_comm]

theorem wireByte_length (clk mosi : Nat) (w : WireByte) :
    (wireByte clk mosi w).length = 25 := by
  cases w <;> rfl

theorem transaction_length (s : Adafruit_SharpMem) (ws : List WireByte) :
    (transaction s ws).length = 2 + 25 * ws.length := by
  have h : ∀ l : List WireByte, (wireBytes s._clk s._mosi l).length = 25 * l.length := by
    intro l
    induction l with
    | nil => rfl
    | cons w l ih => rw [wireBytes_cons, List.length_append, ih, wireByte_length,
        List.length_cons]; omega
  simp only [transaction, List.length_append, h, List.length_cons, List.length_nil]
  omega

theorem holdsFrame_allocated (s : Adafruit_SharpMem) (buf : List Nat)
    (hbuf : HoldsFrame s buf) : Allocated s buf := by
  have h := hbuf.2
  exact ⟨hbuf.1, by omega⟩

theorem allocated_rows (s : Adafruit_SharpMem) (buf : List Nat)
    (hsize : PhysicalSize s) (hbuf : Allocated s buf) :
    (s.WIDTH / 8).toNat * s.HEIGHT.toNat ≤ buf.length := by
  obtain ⟨hW0, _, hH0, _⟩ := hsize
  have h1 : (s.WIDTH / 8) * s.HEIGHT ≤ buf.length := by
    have h2 : 8 * (s.WIDTH / 8) ≤ s.WIDTH := by omega
    have h3 : 8 * (s.WIDTH / 8) * s.HEIGHT ≤ s.WIDTH * s.HEIGHT :=
      Int.mul_le_mul_of_nonneg_right h2 (by omega)
    have h4 : 8 * (s.WIDTH / 8) * s.HEIGHT = 8 * ((s.WIDTH / 8) * s.HEIGHT) := by ring
    have h5 := hbuf.2
    omega
  have h6 : (((s.WIDTH / 8).toNat * s.HEIGHT.toNat : Nat) : Int) = (s.WIDTH / 8) * s.HEIGHT := by
    push_cast
    rw [Int.toNat_of_nonneg (by omega), Int.toNat_of_nonneg (by omega)]
  omega

theorem allocated_memset (s : Adafruit_SharpMem) (buf : List Nat)
    (hsize : PhysicalSize s) (hbuf : Allocated s buf) :
    (s.WIDTH * s.HEIGHT).tdiv 8 = s.WIDTH * s.HEIGHT / 8 ∧ 0 ≤ s.WIDTH * s.HEIGHT / 8 ∧
    (s.WIDTH * s.HEIGHT / 8).toNat ≤ buf.length := by
  have h1 : 0 < s.WIDTH * s.HEIGHT := Int.mul_pos hsize.1 hsize.2.2.1
  have h2 := hbuf.2
  refine ⟨Int.tdiv_eq_ediv (by omega) (by omega), by omega, by omega⟩

/-! ## Lemmas on sequences of bus operations -/

theorem bits_msb (b : Nat) : WireByte.bits (WireByte.msb b) =
    [b.testBit 7, b.testBit 6, b.testBit 5, b.testBit 4, b.testBit 3, b.testBit 2,
     b.testBit 1, b.testBit 0] := rfl

/-- The display latches the bits of the first byte of a transaction. -/
theorem commandByte_transaction (s : Adafruit_SharpMem) (hp : DistinctPins s) (b : Nat)
    (ws : List WireByte) :
    commandByte s._clk s._mosi (transaction s (WireByte.msb b :: ws)) =
      ofBitsMSB (WireByte.bits (WireByte.msb b)) := by
  obtain ⟨h1, h2, h3⟩ := hp
  have h4 : ¬ s._mosi = s._clk := fun h => h1 h.symm
  rw [bits_msb]
  simp [commandByte, transaction, wireBytes_cons, wireByte, clockOut, risingEdgeData, h2, h3,
    h4, HIGH, LOW]

theorem toggled_iterate (k : Nat) :
    toggled^[k] SHARPMEM_BIT_VCOM = (if k % 2 = 0 then 0x40 else 0x00) ∧
    toggled^[k + 1] SHARPMEM_BIT_VCOM = (if k % 2 = 0 then 0x00 else 0x40) := by
  induction k with
  | zero => exact ⟨rfl, rfl⟩
  | succ n ih =>
    obtain ⟨h1, h2⟩ := ih
    refine ⟨?_, ?_⟩
    · rw [h2]; split <;> split <;> first | rfl | omega
    · rw [Function.iterate_succ_apply', h2]
      split <;> split <;> first | rfl | omega

/-- One bus operation in a ready state: it succeeds, leaves a ready state on the
same pins, toggles the stored polarity value and sends a command byte whose
`0x40` bit is the polarity value stored before the call. -/
theorem call_spec (c : BusCall) (s : Adafruit_SharpMem) (hr : Ready s) :
    ∃ s1, c.run s = some s1 ∧ Ready s1 ∧ s1._clk = s._clk ∧ s1._mosi = s._mosi ∧
      s1._sharpmem_vcom = toggled s._sharpmem_vcom ∧
      commandByte s._clk s._mosi (s1.bus.drop s.bus.length) &&& 0x40 = s._sharpmem_vcom := by
  obtain ⟨hsize, hpins, ⟨buf, hbuf⟩, hv⟩ := hr
  obtain ⟨hdiv, hnn, hlen⟩ := allocated_memset s buf hsize hbuf
  have hv1 : toggled s._sharpmem_vcom = 0x00 ∨ toggled s._sharpmem_vcom = SHARPMEM_BIT_VCOM := by
    rcases hv with h | h <;> rw [h] <;> decide
  cases c with
  | clearDisplay =>
    refine ⟨_, clearDisplay_eq s buf hbuf.1 (by rw [hdiv]; exact hnn)
      (by rw [hdiv]; exact hlen), ⟨hsize, hpins, ⟨_, rfl, ?_⟩, hv1⟩, rfl, rfl, rfl, ?_⟩
    · have h1 := hbuf.2
      simp only [emit_proj_WIDTH, emit_proj_HEIGHT, TOGGLE_VCOM_proj_WIDTH,
        TOGGLE_VCOM_proj_HEIGHT, withBuffer_proj_WIDTH, withBuffer_proj_HEIGHT,
        List.length_append, List.length_replicate, List.length_drop]
      omega
    · simp only [emit_proj_bus, TOGGLE_VCOM_proj_bus, withBuffer_proj_bus, List.drop_left,
        specClear]
      rw [commandByte_transaction s hpins]
      rcases hv with h | h <;> rw [h] <;> decide
  | refresh =>
    refine ⟨_, refresh_eq s buf hbuf.1 (by have := hsize.1; omega)
      (allocated_rows s buf hsize hbuf), ⟨hsize, hpins, ⟨buf, hbuf⟩, hv1⟩, rfl, rfl, rfl, ?_⟩
    simp only [emit_proj_bus, TOGGLE_VCOM_proj_bus, List.drop_left, specRefresh,
      List.cons_append]
    rw [commandByte_transaction s hpins]
    rcases hv with h | h <;> rw [h] <;> decide

theorem runCalls_spec (calls : List BusCall) : ∀ (s : Adafruit_SharpMem), Ready s →
    ∃ recs, runCalls calls s = some recs ∧ recs.length = calls.length ∧
      ∀ (k : Nat) (seg : List PinEvent) (v : Nat), recs[k]? = some (seg, v) →
        commandByte s._clk s._mosi seg &&& 0x40 = toggled^[k] s._sharpmem_vcom ∧
        v = toggled^[k + 1] s._sharpmem_vcom := by
  induction calls with
  | nil => intro s _; exact ⟨[], rfl, rfl, by simp⟩
  | cons c cs ih =>
    intro s hr
    obtain ⟨s1, hrun, hr1, hclk, hmosi, hvcom, hcmd⟩ := call_spec c s hr
    obtain ⟨recs, hrecs, hlen, hall⟩ := ih s1 hr1
    refine ⟨(s1.bus.drop s.bus.length, s1._sharpmem_vcom) :: recs, ?_, by simp [hlen], ?_⟩
    · simp [runCalls, hrun, hrecs]
    · intro k seg v hk
      cases k with
      | zero =>
        simp only [List.getElem?_cons_zero, Option.some.injEq, Prod.mk.injEq] at hk
        obtain ⟨rfl, rfl⟩ := hk
        exact ⟨hcmd, hvcom⟩
      | succ n =>
        simp only [List.getElem?_cons_succ] at hk
        obtain ⟨h1, h2⟩ := hall n seg v hk
        rw [hclk, hmosi, hvcom] at h1
        rw [hvcom] at h2
        exact ⟨h1, h2⟩

theorem pinMode_eq_emit (s : Adafruit_SharpMem) (pin : Nat) :
    pinMode s pin = s.emit [PinEvent.mode pin] := rfl

/-- The result of `begin` when the allocation fails. -/
theorem begin_null (s : Adafruit_SharpMem) (malloc : Nat → Option (List Nat))
    (hm : malloc (toSizeT ((s.WIDTH * s.HEIGHT).tdiv 8)) = none) :
    (begin s malloc).1 = false := by
  unfold begin
  simp only [digitalWrite_eq_emit, pinMode_eq_emit, emit_emit, emit_proj_clk, emit_proj_mosi,
    emit_proj_ss, emit_proj_WIDTH, emit_proj_HEIGHT, emit_proj_width, emit_proj_height,
    emit_proj_rotation, emit_proj_vcom, emit_proj_buffer, emit_proj_bus, hm]
  rfl

/-- The result of `begin` when the allocation succeeds. -/
theorem begin_some (s : Adafruit_SharpMem) (malloc : Nat → Option (List Nat)) (blk : List Nat)
    (hm : malloc (toSizeT ((s.WIDTH * s.HEIGHT).tdiv 8)) = some blk) :
    begin s malloc = (true, { s with
      _width := s.WIDTH, _height := s.HEIGHT, rotation := 0,
      _sharpmem_vcom := SHARPMEM_BIT_VCOM, sharpmem_buffer := some blk,
      bus := s.bus ++ [PinEvent.write s._ss HIGH, PinEvent.write s._clk LOW,
        PinEvent.write s._mosi HIGH, PinEvent.mode s._ss, PinEvent.mode s._clk,
        PinEvent.mode s._mosi] }) := by
  unfold begin
  simp only [digitalWrite_eq_emit, pinMode_eq_emit, emit_emit, emit_proj_clk, emit_proj_mosi,
    emit_proj_ss, emit_proj_WIDTH, emit_proj_HEIGHT, emit_proj_width, emit_proj_height,
    emit_proj_rotation, emit_proj_vcom, emit_proj_buffer, emit_proj_bus, hm]
  rfl

theorem toSizeT_request (W H : Int) (hW0 : 0 < W) (hW1 : W ≤ 32767) (hH0 : 0 < H)
    (hH1 : H ≤ 32767) : toSizeT ((W * H).tdiv 8) = (W * H / 8).toNat := by
  have h1 : 0 < W * H := Int.mul_pos hW0 hH0
  have h2 : W * H ≤ 32767 * H := Int.mul_le_mul_of_nonneg_right hW1 (by omega)
  unfold toSizeT
  rw [Int.tdiv_eq_ediv (by omega) (by omega)]
  omega

theorem begin_ready (s s0 : Adafruit_SharpMem) (malloc : Nat → Option (List Nat))
    (hsize : PhysicalSize s) (hpins : DistinctPins s)
    (hmalloc : ∀ n blk, malloc n = some blk → blk.length = n)
    (hbegin : begin s malloc = (true, s0)) :
    Ready s0 ∧ s0._sharpmem_vcom = SHARPMEM_BIT_VCOM ∧ s0._clk = s._clk ∧
      s0._mosi = s._mosi := by
  cases hm : malloc (toSizeT ((s.WIDTH * s.HEIGHT).tdiv 8)) with
  | none =>
    have h1 := begin_null s malloc hm
    rw [hbegin] at h1
    simp at h1
  | some blk =>
    have h4 := hmalloc _ _ hm
    rw [toSizeT_request _ _ hsize.1 hsize.2.1 hsize.2.2.1 hsize.2.2.2] at h4
    rw [begin_some s malloc blk hm] at hbegin
    have h5 := (Prod.mk.inj hbegin).2
    subst h5
    refine ⟨⟨hsize, hpins, ⟨blk, rfl, ?_⟩, Or.inr rfl⟩, rfl, rfl, rfl⟩
    show s.WIDTH * s.HEIGHT / 8 ≤ (blk.length : Int)
    have h6 : 0 < s.WIDTH * s.HEIGHT := Int.mul_pos hsize.1 hsize.2.2.1
    omega

/-! ## Pixel access: round trip, mapping, clipping, index safety -/

/-- C1 (round trip).  For every rotation 0..3, all positive `int16_t` physical
extents, every buffer block that holds the `WIDTH * HEIGHT` pixel bits and every
logical coordinate inside the logical extents, `drawPixel(x, y, v)` succeeds and
`getPixel(x, y)` on the resulting state returns 0 when `v` is zero and 1 when
`v` is any non-zero colour; in particular it returns `v` for `v` in {0, 1}. -/
theorem drawPixel_getPixel_roundtrip (s : Adafruit_SharpMem) (buf : List Nat)
    (x y : Int) (v : Nat)
    (hsize : PhysicalSize s) (hrot : LogicalExtents s) (hbuf : HoldsFrame s buf)
    (hx : 0 ≤ x ∧ x < s._width) (hy : 0 ≤ y ∧ y < s._height) :
    ∃ s1, drawPixel s x y v = some s1 ∧
      getPixel s1 x y = some (if v = 0 then 0 else 1) ∧
      (v ≤ 1 → getPixel s1 x y = some v) := by
  obtain ⟨b, _, hlt, hk, hdraw, _⟩ := pixel_access s buf x y v hsize hrot hbuf hx hy
  obtain ⟨b1, hb1, _, _, _, hget⟩ := pixel_access
    (s.withBuffer (buf.set (specByte s.WIDTH s.HEIGHT s.rotation x y)
      (if v ≠ 0 then b ||| 2 ^ specBit s.WIDTH s.HEIGHT s.rotation x y
       else b &&& (255 - 2 ^ specBit s.WIDTH s.HEIGHT s.rotation x y))))
    _ x y v hsize hrot ⟨rfl, by simpa [withBuffer] using hbuf.2⟩ hx hy
  simp only [withBuffer, List.getElem?_set_self hlt, Option.some.injEq] at hb1
  have hval : getPixel (s.withBuffer (buf.set (specByte s.WIDTH s.HEIGHT s.rotation x y)
      (if v ≠ 0 then b ||| 2 ^ specBit s.WIDTH s.HEIGHT s.rotation x y
       else b &&& (255 - 2 ^ specBit s.WIDTH s.HEIGHT s.rotation x y)))) x y
      = some (if v = 0 then 0 else 1) := by
    rw [hget, ← hb1]
    simp only [withBuffer]
    by_cases hv : v = 0
    · have h0 : ¬ ((b &&& (255 - 2 ^ specBit s.WIDTH s.HEIGHT s.rotation x y)) &&&
          2 ^ specBit s.WIDTH s.HEIGHT s.rotation x y ≠ 0) := by
        rw [and_two_pow_ne_zero, Nat.testBit_and, testBit_clr_mask _ _ hk hk]
        simp
      simp only [hv, ne_eq, not_true_eq_false, if_false, if_true]
      rw [if_neg h0]
    · have h1 : (b ||| 2 ^ specBit s.WIDTH s.HEIGHT s.rotation x y) &&&
          2 ^ specBit s.WIDTH s.HEIGHT s.rotation x y ≠ 0 := by
        rw [and_two_pow_ne_zero, Nat.testBit_or, Nat.testBit_two_pow_self]
        simp
      simp only [hv, ne_eq, not_false_eq_true, if_true, if_false]
      rw [if_pos h1]
  refine ⟨_, hdraw, hval, ?_⟩
  intro hv
  rw [hval]
  interval_cases v <;> rfl

/-- Witness for C1: a 16 x 8 panel in rotation 1 (logical extents 8 x 16), a
buffer of sixteen bytes 0xA5, logical pixel (3, 5) and colour 0. -/
theorem drawPixel_getPixel_roundtrip_witness :
    PhysicalSize (sample 16 8 1 (some (List.replicate 16 0xA5))) ∧
    LogicalExtents (sample 16 8 1 (some (List.replicate 16 0xA5))) ∧
    HoldsFrame (sample 16 8 1 (some (List.replicate 16 0xA5))) (List.replicate 16 0xA5) ∧
    ∃ s1, drawPixel (sample 16 8 1 (some (List.replicate 16 0xA5))) 3 5 0 = some s1 ∧
      getPixel s1 3 5 = some (if (0 : Nat) = 0 then 0 else 1) ∧
      ((0 : Nat) ≤ 1 → getPixel s1 3 5 = some 0) :=
  ⟨by decide, by decide, by decide,
    drawPixel_getPixel_roundtrip (sample 16 8 1 (some (List.replicate 16 0xA5)))
      (List.replicate 16 0xA5) 3 5 0 (by decide) (by decide) (by decide)
      (by decide) (by decide)⟩

/-- C2 (rotation mapping exactness).  At an in-range logical `(x, y)` both
rotation switches of the code compute the physical `(px, py)` of the
specification: `(x, y)`, `(W-1-y, x)`, `(W-1-x, H-1-y)`, `(y, H-1-x)` for
rotations 0, 1, 2, 3.  `drawPixel(x, y, v)` replaces byte `(py*W + px) / 8` of
the buffer, and no other byte, by the old byte with mask `2^(px mod 8)` or-ed in
(`v` non-zero) or masked out (`v` zero): bit `px mod 8` becomes `v ≠ 0` and the
other seven bits keep their value.  `getPixel(x, y)` reads that same bit. -/
theorem drawPixel_rotation_mapping (s : Adafruit_SharpMem) (buf : List Nat)
    (x y : Int) (v : Nat)
    (hsize : PhysicalSize s) (hrot : LogicalExtents s) (hbuf : HoldsFrame s buf)
    (hx : 0 ≤ x ∧ x < s._width) (hy : 0 ≤ y ∧ y < s._height) :
    rotateInt16 s x y = specTransform s.WIDTH s.HEIGHT s.rotation x y ∧
    rotateUInt16 s x y = specTransform s.WIDTH s.HEIGHT s.rotation x y ∧
    ∃ b, buf[specByte s.WIDTH s.HEIGHT s.rotation x y]? = some b ∧
      drawPixel s x y v = some (s.withBuffer
        (buf.set (specByte s.WIDTH s.HEIGHT s.rotation x y)
          (if v ≠ 0 then b ||| 2 ^ specBit s.WIDTH s.HEIGHT s.rotation x y
           else b &&& (255 - 2 ^ specBit s.WIDTH s.HEIGHT s.rotation x y)))) ∧
      (∀ j, j < 8 →
        (if v ≠ 0 then b ||| 2 ^ specBit s.WIDTH s.HEIGHT s.rotation x y
         else b &&& (255 - 2 ^ specBit s.WIDTH s.HEIGHT s.rotation x y)).testBit j =
        if j = specBit s.WIDTH s.HEIGHT s.rotation x y then decide (v ≠ 0)
        else b.testBit j) ∧
      getPixel s x y =
        some (if b.testBit (specBit s.WIDTH s.HEIGHT s.rotation x y) then 1 else 0) := by
  obtain ⟨h16, hu16, _⟩ := rotate_eq_specTransform s x y hsize hrot hx hy
  obtain ⟨b, hb, _, hk, hdraw, hget⟩ := pixel_access s buf x y v hsize hrot hbuf hx hy
  refine ⟨h16, hu16, b, hb, hdraw, ?_, ?_⟩
  · intro j hj
    by_cases hv : v = 0
    · simp only [hv, ne_eq, not_true_eq_false, if_false, Nat.testBit_and,
        testBit_clr_mask _ _ hk hj, decide_False]
      by_cases hjk : j = specBit s.WIDTH s.HEIGHT s.rotation x y <;> simp [hjk]
    · simp only [hv, ne_eq, not_false_eq_true, if_true, Nat.testBit_or,
        Nat.testBit_two_pow, decide_True]
      by_cases hjk : j = specBit s.WIDTH s.HEIGHT s.rotation x y
      · simp [hjk]
      · have hkj : ¬ specBit s.WIDTH s.HEIGHT s.rotation x y = j := fun h => hjk h.symm
        simp [hjk, hkj]
  · rw [hget]
    by_cases hbit : b.testBit (specBit s.WIDTH s.HEIGHT s.rotation x y) = true
    · rw [if_pos ((and_two_pow_ne_zero _ _).2 hbit), if_pos hbit]
    · rw [if_neg (fun h => hbit ((and_two_pow_ne_zero _ _).1 h)), if_neg hbit]

/-- Witness for C2 on a 128 x 128 panel: logical (0, 0) is physical (127, 0) in
rotation 1, (127, 127) in rotation 2 and (0, 127) in rotation 3. -/
theorem drawPixel_rotation_mapping_witness :
    PhysicalSize (sample 128 128 1 (some (List.replicate 2048 0))) ∧
    LogicalExtents (sample 128 128 1 (some (List.replicate 2048 0))) ∧
    HoldsFrame (sample 128 128 1 (some (List.replicate 2048 0))) (List.replicate 2048 0) ∧
    rotateInt16 (sample 128 128 1 (some (List.replicate 2048 0))) 0 0 = (127, 0) ∧
    rotateUInt16 (sample 128 128 1 (some (List.replicate 2048 0))) 0 0 = (127, 0) ∧
    rotateInt16 (sample 128 128 2 (some (List.replicate 2048 0))) 0 0 = (127, 127) ∧
    rotateInt16 (sample 128 128 3 (some (List.replicate 2048 0))) 0 0 = (0, 127) ∧
    specByte 128 128 1 0 0 = 15 ∧ specBit 128 128 1 0 0 = 7 ∧
    getPixel (sample 128 128 1 (some (List.replicate 2048 0))) 0 0 = some 0 := by
  have hlen : HoldsFrame (sample 128 128 1 (some (List.replicate 2048 0)))
      (List.replicate 2048 0) :=
    ⟨rfl, by
      show (128 : Int) * 128 ≤ 8 * ((List.replicate 2048 (0 : Nat)).length : Int)
      rw [List.length_replicate]; decide⟩
  have h1 := drawPixel_rotation_mapping (sample 128 128 1 (some (List.replicate 2048 0)))
    (List.replicate 2048 0) 0 0 1 (by decide) (by decide) hlen (by decide) (by decide)
  have h2 := drawPixel_rotation_mapping (sample 128 128 2 (some (List.replicate 2048 0)))
    (List.replicate 2048 0) 0 0 1 (by decide) (by decide) ⟨rfl, hlen.2⟩
    (by decide) (by decide)
  have h3 := drawPixel_rotation_mapping (sample 128 128 3 (some (List.replicate 2048 0)))
    (List.replicate 2048 0) 0 0 1 (by decide) (by decide) ⟨rfl, hlen.2⟩
    (by decide) (by decide)
  have h4 : getPixel (sample 128 128 1 (some (List.replicate 2048 0))) 0 0 = some 0 := by
    obtain ⟨b, hb, _, _, hget⟩ := h1.2.2
    have h15 : specByte (sample 128 128 1 (some (List.replicate 2048 0))).WIDTH
        (sample 128 128 1 (some (List.replicate 2048 0))).HEIGHT
        (sample 128 128 1 (some (List.replicate 2048 0))).rotation 0 0 = 15 := by decide
    rw [h15, List.getElem?_replicate_of_lt (by decide)] at hb
    rw [hget, ← Option.some.inj hb]
    rfl
  exact ⟨by decide, by decide, hlen, h1.1.trans (by decide), h1.2.1.trans (by decide),
    h2.1.trans (by decide), h3.1.trans (by decide), by decide, by decide, h4⟩

/-- C8 (clipping of writes).  In every state (every rotation, every buffer, also
a null one) a `drawPixel(x, y, v)` with `x < 0`, `y < 0`, `x >= _width` or
`y >= _height` returns with the state unchanged: the framebuffer, the polarity
bit and the log of pin writes are what they were. -/
theorem drawPixel_clips (s : Adafruit_SharpMem) (x y : Int) (v : Nat)
    (h : x < 0 ∨ y < 0 ∨ x ≥ s._width ∨ y ≥ s._height) :
    drawPixel s x y v = some s := by
  unfold drawPixel
  rw [if_pos (by omega)]

/-- Witness for C8: `drawPixel(-1, 3, 1)` and a null buffer pointer. -/
theorem drawPixel_clips_witness :
    ((-1 : Int) < 0 ∨ (3 : Int) < 0 ∨ (-1 : Int) ≥ (sample 8 8 0 none)._width ∨
      (3 : Int) ≥ (sample 8 8 0 none)._height) ∧
    drawPixel (sample 8 8 0 none) (-1) 3 1 = some (sample 8 8 0 none) :=
  ⟨by decide, drawPixel_clips (sample 8 8 0 none) (-1) 3 1 (by decide)⟩

/-- C9 (clipping of reads).  In every state (every rotation, every buffer, also
a null one, so the buffer is not read) `getPixel(x, y)` with `x >= _width` or
`y >= _height` returns 0. -/
theorem getPixel_clips (s : Adafruit_SharpMem) (x y : Int)
    (h : x ≥ s._width ∨ y ≥ s._height) :
    getPixel s x y = some 0 := by
  unfold getPixel
  rw [if_pos h]

/-- Witness for C9: the argument -1 arrives as the `uint16_t` value 65535. -/
theorem getPixel_clips_witness :
    toUInt16 (-1) = 65535 ∧
    (toUInt16 (-1) ≥ (sample 8 8 3 none)._width ∨ (2 : Int) ≥ (sample 8 8 3 none)._height) ∧
    getPixel (sample 8 8 3 none) (toUInt16 (-1)) 2 = some 0 :=
  ⟨by decide, by decide, getPixel_clips (sample 8 8 3 none) (toUInt16 (-1)) 2 (by decide)⟩

/-- C10 (in-range transform, index safety).  For every rotation 0..3, positive
physical extents and logical `(x, y)` inside the logical extents, the physical
coordinates computed by `drawPixel` and by `getPixel` are the same pair and
satisfy `0 <= px < WIDTH`, `0 <= py < HEIGHT`; when `WIDTH * HEIGHT` is a
multiple of 8 the byte index `(py * WIDTH + px) / 8` is non-negative and below
the buffer size `(WIDTH * HEIGHT) / 8`. -/
theorem transform_in_range (s : Adafruit_SharpMem) (x y : Int)
    (hsize : PhysicalSize s) (hrot : LogicalExtents s)
    (hx : 0 ≤ x ∧ x < s._width) (hy : 0 ≤ y ∧ y < s._height) :
    rotateUInt16 s x y = rotateInt16 s x y ∧
    0 ≤ (rotateInt16 s x y).1 ∧ (rotateInt16 s x y).1 < s.WIDTH ∧
    0 ≤ (rotateInt16 s x y).2 ∧ (rotateInt16 s x y).2 < s.HEIGHT ∧
    (8 ∣ s.WIDTH * s.HEIGHT →
      0 ≤ byteIndex s (rotateInt16 s x y).1 (rotateInt16 s x y).2 ∧
      byteIndex s (rotateInt16 s x y).1 (rotateInt16 s x y).2 <
        (s.WIDTH * s.HEIGHT).tdiv 8) := by
  obtain ⟨h16, hu16, hp1, hp2, hp3, hp4⟩ := rotate_eq_specTransform s x y hsize hrot hx hy
  rw [hu16, h16]
  refine ⟨rfl, hp1, hp2, hp3, hp4, ?_⟩
  intro hdvd
  obtain ⟨q, hq⟩ := hdvd
  have hq0 : 0 ≤ q := by
    have : 0 < s.WIDTH * s.HEIGHT := Int.mul_pos hsize.1 hsize.2.2.1
    omega
  obtain ⟨hdiv, hnn, hlt⟩ := byteIndex_in_frame s.WIDTH s.HEIGHT _ _ q.toNat
    ⟨hp1, hp2⟩ ⟨hp3, hp4⟩ (by omega)
  unfold byteIndex
  rw [hdiv, Int.tdiv_eq_ediv (by omega) (by omega)]
  omega

/-- Witness for C10: a 16 x 8 panel in rotation 3 and logical pixel (7, 15). -/
theorem transform_in_range_witness :
    PhysicalSize (sample 16 8 3 none) ∧ LogicalExtents (sample 16 8 3 none) ∧
    (8 : Int) ∣ (sample 16 8 3 none).WIDTH * (sample 16 8 3 none).HEIGHT ∧
    rotateInt16 (sample 16 8 3 none) 7 15 = (15, 0) ∧
    0 ≤ byteIndex (sample 16 8 3 none) (rotateInt16 (sample 16 8 3 none) 7 15).1
      (rotateInt16 (sample 16 8 3 none) 7 15).2 ∧
    byteIndex (sample 16 8 3 none) (rotateInt16 (sample 16 8 3 none) 7 15).1
      (rotateInt16 (sample 16 8 3 none) 7 15).2 <
      ((sample 16 8 3 none).WIDTH * (sample 16 8 3 none).HEIGHT).tdiv 8 :=
  ⟨by decide, by decide, by decide, by decide,
    (transform_in_range (sample 16 8 3 none) 7 15 (by decide) (by decide) (by decide)
      (by decide)).2.2.2.2.2 (by decide)⟩

/-! ## Bus operations: framing and clearing -/

/-- C3 (refresh framing).  For positive physical extents (in particular all
multiples of 8) and every content of a buffer of at least `(W*H)/8` bytes,
`refresh()` succeeds and appends to the pin log exactly one transaction: chip select high,
the bytes of `specRefresh`, chip select low.  The byte values are, in order, the
command byte `0x80 | vcom_before`; for each row `i = 0 .. H-1` the row address,
the `W/8` buffer bytes `buffer[(W/8)*i + j]`, `j = 0 .. W/8-1`, and a `0x00`
trailer; then a final `0x00`. -/
theorem refresh_framing (s : Adafruit_SharpMem) (buf : List Nat)
    (hsize : PhysicalSize s) (hbuf : Allocated s buf) :
    ∃ s1, refresh s = some s1 ∧
      s1.bus = s.bus ++ transaction s (specRefresh s.WIDTH s.HEIGHT s._sharpmem_vcom buf) ∧
      (specRefresh s.WIDTH s.HEIGHT s._sharpmem_vcom buf).map WireByte.value =
        (0x80 ||| s._sharpmem_vcom) ::
          ((List.range s.HEIGHT.toNat).flatMap fun i =>
            ((i + 1) % 256) ::
              ((List.range (s.WIDTH / 8).toNat).map fun j =>
                buf.getD ((s.WIDTH / 8).toNat * i + j) 0) ++ [0x00]) ++ [0x00] := by
  refine ⟨_, refresh_eq s buf hbuf.1 (by have := hsize.1; omega)
    (allocated_rows s buf hsize hbuf), by simp, ?_⟩
  simp [specRefresh, specRow, List.map_flatMap, WireByte.value, Function.comp_def]

/-- Witness for C3: width 8, height 2, buffer `[0xAA, 0x55]`, polarity bit set. -/
theorem refresh_framing_witness :
    PhysicalSize (sample 8 2 0 (some [0xAA, 0x55])) ∧
    Allocated (sample 8 2 0 (some [0xAA, 0x55])) [0xAA, 0x55] ∧
    ∃ s1, refresh (sample 8 2 0 (some [0xAA, 0x55])) = some s1 ∧
      s1.bus = transaction (sample 8 2 0 (some [0xAA, 0x55]))
        [WireByte.msb 0xC0, WireByte.lsb 0x01, WireByte.lsb 0xAA, WireByte.msb 0x00,
         WireByte.lsb 0x02, WireByte.lsb 0x55, WireByte.msb 0x00, WireByte.msb 0x00] := by
  refine ⟨by decide, by decide, ?_⟩
  obtain ⟨s1, h1, h2, _⟩ := refresh_framing (sample 8 2 0 (some [0xAA, 0x55])) [0xAA, 0x55]
    (by decide) (by decide)
  exact ⟨s1, h1, h2.trans rfl⟩

/-- C4, as the claim states it, fails: for width 8, height 2 and buffer
`[0xAA, 0x55]` the pin log of `refresh()` is not the transaction of any sequence
of 7 bytes. -/
theorem refresh_frame_length_counterexample :
    ¬ ∃ s1 ws, refresh (sample 8 2 0 (some [0xAA, 0x55])) = some s1 ∧
      s1.bus = transaction (sample 8 2 0 (some [0xAA, 0x55])) ws ∧ ws.length = 7 := by
  rintro ⟨s1, ws, h1, h2, h3⟩
  rw [refresh_eq (sample 8 2 0 (some [0xAA, 0x55])) [0xAA, 0x55] rfl (by decide) (by decide)] at h1
  have h4 := congrArg List.length h2
  rw [← Option.some.inj h1, transaction_length, h3] at h4
  simp only [emit_proj_bus, TOGGLE_VCOM_proj_bus, List.length_append, transaction_length] at h4
  revert h4
  decide

/-- C4, amended: for width 8, height 2 and buffer `[0xAA, 0x55]`, `refresh()`
emits 8 bytes in total: the command byte, two three-byte row groups and the
final `0x00`. -/
theorem refresh_frame_length :
    ∃ s1, refresh (sample 8 2 0 (some [0xAA, 0x55])) = some s1 ∧
      s1.bus = transaction (sample 8 2 0 (some [0xAA, 0x55]))
        ([WireByte.msb 0xC0] ++ [WireByte.lsb 0x01, WireByte.lsb 0xAA, WireByte.msb 0x00] ++
         [WireByte.lsb 0x02, WireByte.lsb 0x55, WireByte.msb 0x00] ++ [WireByte.msb 0x00]) ∧
      ([WireByte.msb 0xC0] ++ [WireByte.lsb 0x01, WireByte.lsb 0xAA, WireByte.msb 0x00] ++
         [WireByte.lsb 0x02, WireByte.lsb 0x55, WireByte.msb 0x00] ++
         [WireByte.msb 0x00]).length = 8 ∧
      s1.bus.length = 2 + 25 * 8 :=
  ⟨_, refresh_eq (sample 8 2 0 (some [0xAA, 0x55])) [0xAA, 0x55] rfl (by decide) (by decide),
    rfl, rfl, rfl⟩

/-- C6 (clear byte sequence).  In every state with positive physical extents
and a buffer of at least `(W*H)/8` bytes, `clearDisplay()` succeeds and appends to the
pin log exactly one transaction of two bytes: `0x20 | vcom_before` sent most
significant bit first, then `0x00` sent least significant bit first, where
`vcom_before` is the polarity bit stored before the call. -/
theorem clearDisplay_bytes (s : Adafruit_SharpMem) (buf : List Nat)
    (hsize : PhysicalSize s) (hbuf : Allocated s buf) :
    ∃ s1, clearDisplay s = some s1 ∧
      s1.bus = s.bus ++
        transaction s [WireByte.msb (0x20 ||| s._sharpmem_vcom), WireByte.lsb 0x00] := by
  obtain ⟨hdiv, hnn, hlen⟩ := allocated_memset s buf hsize hbuf
  refine ⟨_, clearDisplay_eq s buf hbuf.1 (by rw [hdiv]; exact hnn)
    (by rw [hdiv]; exact hlen), ?_⟩
  simp [specClear]

/-- Witness for C6: an 8 x 2 panel with buffer `[0xAA, 0x55]` and the polarity
bit set; the bytes are `0x60` and `0x00`. -/
theorem clearDisplay_bytes_witness :
    PhysicalSize (sample 8 2 0 (some [0xAA, 0x55])) ∧
    Allocated (sample 8 2 0 (some [0xAA, 0x55])) [0xAA, 0x55] ∧
    ∃ s1, clearDisplay (sample 8 2 0 (some [0xAA, 0x55])) = some s1 ∧
      s1.bus = transaction (sample 8 2 0 (some [0xAA, 0x55]))
        [WireByte.msb 0x60, WireByte.lsb 0x00] := by
  refine ⟨by decide, by decide, ?_⟩
  obtain ⟨s1, h1, h2⟩ := clearDisplay_bytes (sample 8 2 0 (some [0xAA, 0x55])) [0xAA, 0x55]
    (by decide) (by decide)
  exact ⟨s1, h1, h2.trans rfl⟩

/-- C7 (clear consistency of the buffer).  With positive physical extents whose
product is a multiple of 8 and a buffer that holds the frame, whatever its
content, `clearDisplay()` succeeds, each of the first `W*H/8` bytes of the
buffer is `0xFF` afterwards, and `getPixel(x, y)` returns 1 at every logical
coordinate inside the logical extents, in whichever rotation 0..3 the state
is. -/
theorem clearDisplay_buffer (s : Adafruit_SharpMem) (buf : List Nat)
    (hsize : PhysicalSize s) (hrot : LogicalExtents s) (hbuf : HoldsFrame s buf)
    (h8 : 8 ∣ s.WIDTH * s.HEIGHT) :
    ∃ s1 buf1, clearDisplay s = some s1 ∧ s1.sharpmem_buffer = some buf1 ∧
      buf1.length = buf.length ∧
      (∀ i, i < (s.WIDTH * s.HEIGHT / 8).toNat → buf1[i]? = some 0xFF) ∧
      (∀ x y : Int, 0 ≤ x ∧ x < s._width → 0 ≤ y ∧ y < s._height →
        getPixel s1 x y = some 1) := by
  obtain ⟨hdiv, hnn, hlen⟩ := allocated_memset s buf hsize (holdsFrame_allocated s buf hbuf)
  have hfill : ∀ i, i < (s.WIDTH * s.HEIGHT / 8).toNat →
      (List.replicate (s.WIDTH * s.HEIGHT / 8).toNat 0xff ++
        buf.drop (s.WIDTH * s.HEIGHT / 8).toNat)[i]? = some 0xFF := by
    intro i hi
    rw [List.getElem?_append_left (by simpa using hi)]
    exact List.getElem?_replicate_of_lt hi
  have hlen1 : (List.replicate (s.WIDTH * s.HEIGHT / 8).toNat 0xff ++
      buf.drop (s.WIDTH * s.HEIGHT / 8).toNat).length = buf.length := by
    simp only [List.length_append, List.length_replicate, List.length_drop]
    omega
  have hclear := clearDisplay_eq s buf hbuf.1 (by rw [hdiv]; exact hnn)
    (by rw [hdiv]; exact hlen)
  rw [hdiv] at hclear
  refine ⟨_, _, hclear, rfl, hlen1, hfill, ?_⟩
  intro x y hx hy
  obtain ⟨b, hb, _, hk, _, hget⟩ := pixel_access
    ((TOGGLE_VCOM (s.withBuffer (List.replicate (s.WIDTH * s.HEIGHT / 8).toNat 0xff ++
      buf.drop (s.WIDTH * s.HEIGHT / 8).toNat))).emit
      (transaction s (specClear s._sharpmem_vcom)))
    _ x y 0 hsize hrot ⟨rfl, by rw [hlen1]; exact hbuf.2⟩ hx hy
  obtain ⟨_, _, hp1, hp2, hp3, hp4⟩ := rotate_eq_specTransform s x y hsize hrot hx hy
  obtain ⟨q, hq⟩ := h8
  obtain ⟨_, _, hlt⟩ := byteIndex_in_frame s.WIDTH s.HEIGHT _ _ (s.WIDTH * s.HEIGHT / 8).toNat
    ⟨hp1, hp2⟩ ⟨hp3, hp4⟩ (by omega)
  simp only [emit_proj_WIDTH, emit_proj_HEIGHT, emit_proj_rotation, TOGGLE_VCOM_proj_WIDTH,
    TOGGLE_VCOM_proj_HEIGHT, TOGGLE_VCOM_proj_rotation, withBuffer_proj_WIDTH,
    withBuffer_proj_HEIGHT, withBuffer_proj_rotation] at hb hk hget
  have hlt1 : specByte s.WIDTH s.HEIGHT s.rotation x y < (s.WIDTH * s.HEIGHT / 8).toNat := hlt
  rw [hfill _ hlt1] at hb
  rw [hget, ← Option.some.inj hb]
  have hff : (0xFF : Nat) &&& 2 ^ specBit s.WIDTH s.HEIGHT s.rotation x y ≠ 0 := by
    rw [and_two_pow_ne_zero]
    generalize specBit s.WIDTH s.HEIGHT s.rotation x y = k at hk
    interval_cases k <;> rfl
  rw [if_pos hff]

/-- Witness for C7: a 16 x 8 panel in rotation 1 whose sixteen buffer bytes are
all zero before the clear. -/
theorem clearDisplay_buffer_witness :
    PhysicalSize (sample 16 8 1 (some (List.replicate 16 0))) ∧
    LogicalExtents (sample 16 8 1 (some (List.replicate 16 0))) ∧
    HoldsFrame (sample 16 8 1 (some (List.replicate 16 0))) (List.replicate 16 0) ∧
    (8 : Int) ∣ (sample 16 8 1 (some (List.replicate 16 0))).WIDTH *
      (sample 16 8 1 (some (List.replicate 16 0))).HEIGHT ∧
    ∃ s1, clearDisplay (sample 16 8 1 (some (List.replicate 16 0))) = some s1 ∧
      s1.sharpmem_buffer = some (List.replicate 16 0xFF) ∧ getPixel s1 7 15 = some 1 := by
  refine ⟨by decide, by decide, by decide, by decide, ?_⟩
  obtain ⟨s1, buf1, h1, _, _, _, h5⟩ := clearDisplay_buffer
    (sample 16 8 1 (some (List.replicate 16 0))) (List.replicate 16 0)
    (by decide) (by decide) (by decide) (by decide)
  refine ⟨s1, h1, ?_, h5 7 15 (by decide) (by decide)⟩
  have h6 : clearDisplay (sample 16 8 1 (some (List.replicate 16 0))) = some
      ((TOGGLE_VCOM ((sample 16 8 1 (some (List.replicate 16 0))).withBuffer
        (List.replicate 16 0xFF))).emit
        (transaction (sample 16 8 1 (some (List.replicate 16 0))) (specClear 0x40))) := by
    decide
  rw [h6] at h1
  rw [← Option.some.inj h1]
  rfl

/-- C5 (polarity alternation).  After a successful `begin()` on a driver with
positive physical extents and three different pins, every sequence of
`clearDisplay()` and `refresh()` calls, in any mix and of any length, runs to
completion; the call at 0-based position `k` (the `k+1`-th call) sends a command
byte whose polarity bit `0x40` is set exactly when `k` is even, and leaves the
stored polarity value `0x00` when `k` is even and `0x40` when `k` is odd: each
call flips the stored bit exactly once, starting from the set value. -/
theorem polarity_alternation (s s0 : Adafruit_SharpMem) (malloc : Nat → Option (List Nat))
    (calls : List BusCall)
    (hsize : PhysicalSize s) (hpins : DistinctPins s)
    (hmalloc : ∀ n blk, malloc n = some blk → blk.length = n)
    (hbegin : begin s malloc = (true, s0)) :
    ∃ recs, runCalls calls s0 = some recs ∧ recs.length = calls.length ∧
      ∀ (k : Nat) (seg : List PinEvent) (v : Nat), recs[k]? = some (seg, v) →
        commandByte s._clk s._mosi seg &&& 0x40 = (if k % 2 = 0 then 0x40 else 0x00) ∧
        v = (if k % 2 = 0 then 0x00 else 0x40) := by
  obtain ⟨hr, hv, hclk, hmosi⟩ := begin_ready s s0 malloc hsize hpins hmalloc hbegin
  obtain ⟨recs, h1, h2, h3⟩ := runCalls_spec calls s0 hr
  refine ⟨recs, h1, h2, ?_⟩
  intro k seg v hk
  obtain ⟨h4, h5⟩ := h3 k seg v hk
  rw [hv, hclk, hmosi] at h4
  rw [hv] at h5
  rw [h4, h5]
  exact toggled_iterate k

/-- Witness for C5: an 8 x 2 panel, an allocator that returns zeroed blocks, and
the calls refresh, clearDisplay, refresh: the command bytes are `0xC0`, `0x20`,
`0xC0` and the stored polarity values after the calls are `0x00`, `0x40`,
`0x00`. -/
theorem polarity_alternation_witness :
    PhysicalSize (sample 8 2 0 none) ∧ DistinctPins (sample 8 2 0 none) ∧
    (∀ n blk, (fun n => some (List.replicate n 0)) n = some blk → blk.length = n) ∧
    ∃ s0, begin (sample 8 2 0 none) (fun n => some (List.replicate n 0)) = (true, s0) ∧
      ∃ recs, runCalls [BusCall.refresh, BusCall.clearDisplay, BusCall.refresh] s0 = some recs ∧
        recs.length = [BusCall.refresh, BusCall.clearDisplay, BusCall.refresh].length ∧
        (∀ (k : Nat) (seg : List PinEvent) (v : Nat), recs[k]? = some (seg, v) →
          commandByte (sample 8 2 0 none)._clk (sample 8 2 0 none)._mosi seg &&& 0x40 =
            (if k % 2 = 0 then 0x40 else 0x00) ∧
          v = (if k % 2 = 0 then 0x00 else 0x40)) ∧
        recs.map (fun r => (commandByte 13 11 r.1, r.2)) =
          [(0xC0, 0x00), (0x20, 0x40), (0xC0, 0x00)] := by
  have hmalloc : ∀ n blk, (fun n => some (List.replicate n 0)) n = some blk → blk.length = n := by
    intro n blk h
    simp only [Option.some.injEq] at h
    rw [← h, List.length_replicate]
  have hbegin := begin_some (sample 8 2 0 none) (fun n => some (List.replicate n 0))
    (List.replicate 2 0) rfl
  refine ⟨by decide, by decide, hmalloc, _, hbegin, ?_⟩
  obtain ⟨recs, h1, h2, h3⟩ := polarity_alternation (sample 8 2 0 none) _
    (fun n => some (List.replicate n 0)) [BusCall.refresh, BusCall.clearDisplay, BusCall.refresh]
    (by decide) (by decide) hmalloc hbegin
  refine ⟨recs, h1, h2, h3, ?_⟩
  have h4 : (runCalls [BusCall.refresh, BusCall.clearDisplay, BusCall.refresh]
      { sample 8 2 0 none with
        _width := 8, _height := 2, rotation := 0,
        _sharpmem_vcom := SHARPMEM_BIT_VCOM, sharpmem_buffer := some (List.replicate 2 0),
        bus := [PinEvent.write 10 HIGH, PinEvent.write 13 LOW, PinEvent.write 11 HIGH,
          PinEvent.mode 10, PinEvent.mode 13, PinEvent.mode 11] }).map
      (fun recs => recs.map (fun r => (commandByte 13 11 r.1, r.2))) =
      some [(0xC0, 0x00), (0x20, 0x40), (0xC0, 0x00)] := by
    set_option maxRecDepth 100000 in rfl
  have h5 := congrArg (Option.map (fun recs => recs.map (fun r => (commandByte 13 11 r.1, r.2)))) h1
  exact Option.some.inj (h5.symm.trans h4)

/-! ## Lemmas on what the display latches -/

theorem ofBitsMSB_testBit_lt : ∀ m, m < 256 →
    ofBitsMSB [m.testBit 7, m.testBit 6, m.testBit 5, m.testBit 4, m.testBit 3, m.testBit 2,
      m.testBit 1, m.testBit 0] = m := by
  set_option maxRecDepth 100000 in decide

theorem ofBitsMSB_bits_msb (b : Nat) : ofBitsMSB (WireByte.bits (WireByte.msb b)) = b % 256 := by
  have h := ofBitsMSB_testBit_lt (b % 256) (Nat.mod_lt _ (by decide))
  have hbit : ∀ k, k < 8 → (b % 256).testBit k = b.testBit k := by
    intro k hk
    rw [show (256 : Nat) = 2 ^ 8 from rfl, Nat.testBit_mod_two_pow]
    simp [hk]
  rw [hbit 7 (by decide), hbit 6 (by decide), hbit 5 (by decide), hbit 4 (by decide),
    hbit 3 (by decide), hbit 2 (by decide), hbit 1 (by decide), hbit 0 (by decide)] at h
  rw [bits_msb]
  exact h

theorem risingEdgeData_clockOut (clk mosi : Nat) (h : clk ≠ mosi) (rest : List PinEvent) :
    ∀ (bits : List Bool) (c d : Bool), ∃ d1,
      risingEdgeData clk mosi c d (clockOut clk mosi bits ++ PinEvent.write clk LOW :: rest) =
        bits ++ risingEdgeData clk mosi LOW d1 rest := by
  have h1 : ¬ mosi = clk := fun e => h e.symm
  intro bits
  induction bits with
  | nil => intro c d; exact ⟨d, by simp [clockOut, risingEdgeData, HIGH, LOW]⟩
  | cons b bs ih =>
    intro c d
    obtain ⟨d1, hd1⟩ := ih HIGH b
    refine ⟨d1, ?_⟩
    have h2 : clockOut clk mosi (b :: bs) = [PinEvent.write clk LOW, PinEvent.write mosi b,
        PinEvent.write clk HIGH] ++ clockOut clk mosi bs := by
      simp [clockOut]
    rw [h2, List.append_assoc]
    simp only [List.cons_append, List.nil_append, risingEdgeData, h1, if_true, if_false]
    simp only [HIGH, LOW] at hd1 ⊢
    simp [hd1]

theorem risingEdgeData_wireByte (clk mosi : Nat) (h : clk ≠ mosi) (w : WireByte)
    (rest : List PinEvent) (c d : Bool) : ∃ d1,
      risingEdgeData clk mosi c d (wireByte clk mosi w ++ rest) =
        w.bits ++ risingEdgeData clk mosi LOW d1 rest := by
  obtain ⟨d1, hd1⟩ := risingEdgeData_clockOut clk mosi h rest w.bits c d
  exact ⟨d1, by rw [wireByte, List.append_assoc]; exact hd1⟩

theorem risingEdgeData_wireBytes (clk mosi : Nat) (h : clk ≠ mosi) (rest : List PinEvent) :
    ∀ (ws : List WireByte) (c d : Bool), ∃ c1 d1,
      risingEdgeData clk mosi c d (wireBytes clk mosi ws ++ rest) =
        ws.flatMap WireByte.bits ++ risingEdgeData clk mosi c1 d1 rest := by
  intro ws
  induction ws with
  | nil => intro c d; exact ⟨c, d, by simp [wireBytes]⟩
  | cons w ws ih =>
    intro c d
    obtain ⟨d1, hd1⟩ := risingEdgeData_wireByte clk mosi h w
      (wireBytes clk mosi ws ++ rest) c d
    obtain ⟨c2, d2, hd2⟩ := ih LOW d1
    refine ⟨c2, d2, ?_⟩
    rw [wireBytes_cons, List.append_assoc, hd1, hd2]
    simp

/-! ## The two transmit primitives -/

/-- C11 (pin protocol of `sendbyte`).  For every byte `b`, `sendbyte(b)` appends
to the pin log exactly the events clock low, data := bit `7 - k` of `b`, clock
high, for `k = 0 .. 7` in order, followed by one final clock low, and changes
nothing else; its last write is clock low.  When clock and data are different
pins the eight levels the display latches at the rising clock edges are the
bits of `b`, most significant first: read as a binary number they give `b`. -/
theorem sendbyte_protocol (s : Adafruit_SharpMem) (b : Nat) :
    sendbyte s b = s.emit (((List.range 8).flatMap fun k =>
      [PinEvent.write s._clk LOW, PinEvent.write s._mosi (b.testBit (7 - k)),
       PinEvent.write s._clk HIGH]) ++ [PinEvent.write s._clk LOW]) ∧
    (sendbyte s b).bus.getLast? = some (PinEvent.write s._clk LOW) ∧
    (s._clk ≠ s._mosi → ∀ c d : Bool,
      risingEdgeData s._clk s._mosi c d ((sendbyte s b).bus.drop s.bus.length) =
        (List.range 8).map (fun k => b.testBit (7 - k)) ∧
      ofBitsMSB (risingEdgeData s._clk s._mosi c d ((sendbyte s b).bus.drop s.bus.length)) =
        b % 256) := by
  have htrace : wireByte s._clk s._mosi (WireByte.msb b) = ((List.range 8).flatMap fun k =>
      [PinEvent.write s._clk LOW, PinEvent.write s._mosi (b.testBit (7 - k)),
       PinEvent.write s._clk HIGH]) ++ [PinEvent.write s._clk LOW] := by
    simp [wireByte, clockOut, WireByte.bits, List.flatMap_map]
  refine ⟨by rw [sendbyte_eq, htrace], ?_, ?_⟩
  · rw [sendbyte_eq]
    simp [wireByte]
  · intro hne c d
    obtain ⟨d1, hd1⟩ := risingEdgeData_wireByte s._clk s._mosi hne (WireByte.msb b) [] c d
    rw [List.append_nil] at hd1
    have h2 : risingEdgeData s._clk s._mosi c d ((sendbyte s b).bus.drop s.bus.length) =
        (List.range 8).map (fun k => b.testBit (7 - k)) := by
      rw [sendbyte_eq, emit_proj_bus, List.drop_left, hd1]
      simp [risingEdgeData, WireByte.bits]
    refine ⟨h2, ?_⟩
    rw [h2]
    exact ofBitsMSB_bits_msb b

/-- Witness for C11: the byte `0xA5` on clock pin 13 and data pin 11. -/
theorem sendbyte_protocol_witness :
    (sample 8 2 0 none)._clk ≠ (sample 8 2 0 none)._mosi ∧
    risingEdgeData 13 11 LOW HIGH
      ((sendbyte (sample 8 2 0 none) 0xA5).bus.drop (sample 8 2 0 none).bus.length) =
      [true, false, true, false, false, true, false, true] ∧
    ofBitsMSB (risingEdgeData 13 11 LOW HIGH
      ((sendbyte (sample 8 2 0 none) 0xA5).bus.drop (sample 8 2 0 none).bus.length)) = 0xA5 :=
  ⟨by decide,
    ((sendbyte_protocol (sample 8 2 0 none) 0xA5).2.2 (by decide) LOW HIGH).1.trans (by decide),
    ((sendbyte_protocol (sample 8 2 0 none) 0xA5).2.2 (by decide) LOW HIGH).2.trans (by decide)⟩

theorem testBit_ofBitsMSB : ∀ b0 b1 b2 b3 b4 b5 b6 b7 : Bool,
    WireByte.bits (WireByte.msb (ofBitsMSB [b0, b1, b2, b3, b4, b5, b6, b7])) =
      [b0, b1, b2, b3, b4, b5, b6, b7] := by
  decide

theorem bits_msb_bitReverse8 (b : Nat) :
    WireByte.bits (WireByte.msb (bitReverse8 b)) = WireByte.bits (WireByte.lsb b) :=
  testBit_ofBitsMSB _ _ _ _ _ _ _ _

/-- C12 (pin protocol of `sendbyteLSB`).  For every byte `b`, `sendbyteLSB(b)`
appends to the pin log exactly the events clock low, data := bit `k` of `b`,
clock high, for `k = 0 .. 7` in order, followed by one final clock low, and
changes nothing else: the framing of `sendbyte` with the bits least significant
first.  It is the same state change as `sendbyte` applied to the bit reversal of
`b`, and with clock and data on different pins the display latches the bits of
`b`, least significant first. -/
theorem sendbyteLSB_protocol (s : Adafruit_SharpMem) (b : Nat) :
    sendbyteLSB s b = s.emit (((List.range 8).flatMap fun k =>
      [PinEvent.write s._clk LOW, PinEvent.write s._mosi (b.testBit k),
       PinEvent.write s._clk HIGH]) ++ [PinEvent.write s._clk LOW]) ∧
    (sendbyteLSB s b).bus.getLast? = some (PinEvent.write s._clk LOW) ∧
    sendbyteLSB s b = sendbyte s (bitReverse8 b) ∧
    (s._clk ≠ s._mosi → ∀ c d : Bool,
      risingEdgeData s._clk s._mosi c d ((sendbyteLSB s b).bus.drop s.bus.length) =
        (List.range 8).map (fun k => b.testBit k)) := by
  have htrace : wireByte s._clk s._mosi (WireByte.lsb b) = ((List.range 8).flatMap fun k =>
      [PinEvent.write s._clk LOW, PinEvent.write s._mosi (b.testBit k),
       PinEvent.write s._clk HIGH]) ++ [PinEvent.write s._clk LOW] := by
    simp [wireByte, clockOut, WireByte.bits, List.flatMap_map]
  refine ⟨by rw [sendbyteLSB_eq, htrace], ?_, ?_, ?_⟩
  · rw [sendbyteLSB_eq]
    simp [wireByte]
  · rw [sendbyteLSB_eq, sendbyte_eq, wireByte, wireByte, bits_msb_bitReverse8]
  · intro hne c d
    obtain ⟨d1, hd1⟩ := risingEdgeData_wireByte s._clk s._mosi hne (WireByte.lsb b) [] c d
    rw [List.append_nil] at hd1
    rw [sendbyteLSB_eq, emit_proj_bus, List.drop_left, hd1]
    simp [risingEdgeData, WireByte.bits]

/-- Witness for C12: the byte `0x0D`, whose bit reversal is `0xB0`. -/
theorem sendbyteLSB_protocol_witness :
    (sample 8 2 0 none)._clk ≠ (sample 8 2 0 none)._mosi ∧
    bitReverse8 0x0D = 0xB0 ∧
    sendbyteLSB (sample 8 2 0 none) 0x0D = sendbyte (sample 8 2 0 none) 0xB0 ∧
    risingEdgeData 13 11 LOW HIGH
      ((sendbyteLSB (sample 8 2 0 none) 0x0D).bus.drop (sample 8 2 0 none).bus.length) =
      [true, false, true, true, false, false, false, false] :=
  ⟨by decide, by decide, (sendbyteLSB_protocol (sample 8 2 0 none) 0x0D).2.2.1,
    ((sendbyteLSB_protocol (sample 8 2 0 none) 0x0D).2.2.2 (by decide) LOW HIGH).trans
      (by decide)⟩

/-! ## Initialization -/

/-- The state `begin` leaves when the allocation fails. -/
theorem begin_null_state (s : Adafruit_SharpMem) (malloc : Nat → Option (List Nat))
    (hm : malloc (toSizeT ((s.WIDTH * s.HEIGHT).tdiv 8)) = none) :
    begin s malloc = (false, { s with
      _sharpmem_vcom := SHARPMEM_BIT_VCOM, sharpmem_buffer := none,
      bus := s.bus ++ [PinEvent.write s._ss HIGH, PinEvent.write s._clk LOW,
        PinEvent.write s._mosi HIGH, PinEvent.mode s._ss, PinEvent.mode s._clk,
        PinEvent.mode s._mosi] }) := by
  unfold begin
  simp only [digitalWrite_eq_emit, pinMode_eq_emit, emit_emit, emit_proj_clk, emit_proj_mosi,
    emit_proj_ss, emit_proj_WIDTH, emit_proj_HEIGHT, emit_proj_width, emit_proj_height,
    emit_proj_rotation, emit_proj_vcom, emit_proj_buffer, emit_proj_bus, hm]
  rfl

/-- C13, as the claim states it, fails: a driver whose stored polarity value is
`0x00` calls `begin()`, the allocation fails, `begin()` returns false, and the
stored polarity value is `0x40` afterwards, not the value before the call. -/
theorem begin_failure_counterexample :
    (TOGGLE_VCOM (sample 8 2 1 none))._sharpmem_vcom = 0x00 ∧
    (begin (TOGGLE_VCOM (sample 8 2 1 none)) (fun _ => none)).1 = false ∧
    (begin (TOGGLE_VCOM (sample 8 2 1 none)) (fun _ => none)).2._sharpmem_vcom = 0x40 ∧
    ¬ ((begin (TOGGLE_VCOM (sample 8 2 1 none)) (fun _ => none)).2._sharpmem_vcom =
      (TOGGLE_VCOM (sample 8 2 1 none))._sharpmem_vcom) := by
  rw [begin_null_state _ _ rfl]
  exact ⟨rfl, rfl, rfl, by decide⟩

/-- C13, amended: when the storage allocation fails, `begin()` returns false
without setting up the rotation: `rotation`, `_width` and `_height` have the
values they had before the call.  The polarity value has been set to
`SHARPMEM_BIT_VCOM` before the allocation is attempted. -/
theorem begin_failure (s : Adafruit_SharpMem) (malloc : Nat → Option (List Nat))
    (hm : malloc (toSizeT ((s.WIDTH * s.HEIGHT).tdiv 8)) = none) :
    (begin s malloc).1 = false ∧
    (begin s malloc).2.rotation = s.rotation ∧
    (begin s malloc).2._width = s._width ∧
    (begin s malloc).2._height = s._height ∧
    (begin s malloc).2._sharpmem_vcom = SHARPMEM_BIT_VCOM := by
  rw [begin_null_state s malloc hm]
  exact ⟨rfl, rfl, rfl, rfl, rfl⟩

/-- Witness for C13: a 16 x 8 panel in rotation 1 whose allocator always
fails. -/
theorem begin_failure_witness :
    (fun (_ : Nat) => (none : Option (List Nat)))
      (toSizeT (((sample 16 8 1 none).WIDTH * (sample 16 8 1 none).HEIGHT).tdiv 8)) = none ∧
    (begin (sample 16 8 1 none) (fun _ => none)).1 = false ∧
    (begin (sample 16 8 1 none) (fun _ => none)).2.rotation = 1 ∧
    (begin (sample 16 8 1 none) (fun _ => none)).2._width = 8 ∧
    (begin (sample 16 8 1 none) (fun _ => none)).2._height = 16 ∧
    (begin (sample 16 8 1 none) (fun _ => none)).2._sharpmem_vcom = SHARPMEM_BIT_VCOM :=
  ⟨rfl, begin_failure (sample 16 8 1 none) (fun _ => none) rfl⟩

/-- C14 (initialization result).  `begin()` returns false exactly when the
allocation fails.  The request is for `(W*H)/8` bytes, and when `begin()`
returns true the polarity value is `SHARPMEM_BIT_VCOM` (`0x40`), the rotation
is 0 with the physical extents as logical extents, and the buffer is the block
of exactly `(W*H)/8` bytes that the allocator returned. -/
theorem begin_result (s : Adafruit_SharpMem) (malloc : Nat → Option (List Nat))
    (hsize : PhysicalSize s)
    (hmalloc : ∀ n blk, malloc n = some blk → blk.length = n) :
    ((begin s malloc).1 = false ↔
      malloc (toSizeT ((s.WIDTH * s.HEIGHT).tdiv 8)) = none) ∧
    toSizeT ((s.WIDTH * s.HEIGHT).tdiv 8) = (s.WIDTH * s.HEIGHT / 8).toNat ∧
    ((begin s malloc).1 = true →
      (begin s malloc).2._sharpmem_vcom = 0x40 ∧
      (begin s malloc).2.rotation = 0 ∧
      (begin s malloc).2._width = s.WIDTH ∧ (begin s malloc).2._height = s.HEIGHT ∧
      ∃ blk, (begin s malloc).2.sharpmem_buffer = some blk ∧
        blk.length = (s.WIDTH * s.HEIGHT / 8).toNat) := by
  have hreq := toSizeT_request _ _ hsize.1 hsize.2.1 hsize.2.2.1 hsize.2.2.2
  refine ⟨?_, hreq, ?_⟩
  · cases hm : malloc (toSizeT ((s.WIDTH * s.HEIGHT).tdiv 8)) with
    | none => simp [begin_null s malloc hm]
    | some blk => simp [begin_some s malloc blk hm]
  · intro htrue
    cases hm : malloc (toSizeT ((s.WIDTH * s.HEIGHT).tdiv 8)) with
    | none =>
      rw [begin_null s malloc hm] at htrue
      exact absurd htrue (by decide)
    | some blk =>
      have hlen := hmalloc _ _ hm
      rw [hreq] at hlen
      rw [begin_some s malloc blk hm]
      exact ⟨rfl, rfl, rfl, rfl, blk, rfl, hlen⟩

/-- Witness for C14: a 16 x 8 panel and an allocator that returns zeroed
blocks: `begin()` returns true with a buffer of 16 bytes. -/
theorem begin_result_witness :
    PhysicalSize (sample 16 8 1 none) ∧
    (∀ n blk, (fun n => some (List.replicate n 0)) n = some blk → blk.length = n) ∧
    (begin (sample 16 8 1 none) (fun n => some (List.replicate n 0))).1 = true ∧
    (begin (sample 16 8 1 none) (fun n => some (List.replicate n 0))).2._sharpmem_vcom = 0x40 ∧
    (begin (sample 16 8 1 none) (fun n => some (List.replicate n 0))).2.rotation = 0 ∧
    ∃ blk, (begin (sample 16 8 1 none)
        (fun n => some (List.replicate n 0))).2.sharpmem_buffer = some blk ∧
      blk.length = 16 := by
  have hmalloc : ∀ n blk, (fun n => some (List.replicate n 0)) n = some blk → blk.length = n := by
    intro n blk h
    simp only [Option.some.injEq] at h
    rw [← h, List.length_replicate]
  have htrue : (begin (sample 16 8 1 none) (fun n => some (List.replicate n 0))).1 = true := by
    rw [begin_some _ _ (List.replicate 16 0) rfl]
  obtain ⟨h1, h2, _, _, blk, h5, h6⟩ :=
    (begin_result (sample 16 8 1 none) (fun n => some (List.replicate n 0)) (by decide)
      hmalloc).2.2 htrue
  exact ⟨by decide, hmalloc, htrue, h1, h2, blk, h5, h6.trans (by decide)⟩

/-! ## Chip-select framing -/

theorem mem_wireBytes (clk mosi : Nat) (ws : List WireByte) (e : PinEvent)
    (he : e ∈ wireBytes clk mosi ws) :
    ∃ level, e = PinEvent.write clk level ∨ e = PinEvent.write mosi level := by
  simp only [wireBytes, wireByte, clockOut, List.mem_flatMap, List.mem_append, List.mem_cons,
    List.mem_singleton, List.not_mem_nil, or_false] at he
  obtain ⟨w, _, h | h⟩ := he
  · obtain ⟨d, _, h | h | h⟩ := h
    · exact ⟨LOW, Or.inl h⟩
    · exact ⟨d, Or.inr h⟩
    · exact ⟨HIGH, Or.inl h⟩
  · exact ⟨LOW, Or.inl h⟩

theorem framed_events (ss clk mosi : Nat) (h1 : ss ≠ clk) (h2 : ss ≠ mosi)
    (tail : List PinEvent) : ∀ (mid : List PinEvent),
    (∀ e ∈ mid, ∃ level, e = PinEvent.write clk level ∨ e = PinEvent.write mosi level) →
    writesTo ss (mid ++ tail) = writesTo ss tail ∧
    whileSelected ss HIGH (mid ++ tail) = whileSelected ss HIGH tail := by
  intro mid
  induction mid with
  | nil => intro _; exact ⟨rfl, rfl⟩
  | cons e es ih =>
    intro hall
    obtain ⟨ih1, ih2⟩ := ih (fun e1 he1 => hall e1 (List.mem_cons_of_mem _ he1))
    obtain ⟨level, he | he⟩ := hall e (List.mem_cons_self _ _)
    · subst he
      have h3 : ¬ clk = ss := fun h => h1 h.symm
      simp only [HIGH] at ih2 ⊢
      simp [writesTo, whileSelected, h3, ih1, ih2]
    · subst he
      have h3 : ¬ mosi = ss := fun h => h2 h.symm
      simp only [HIGH] at ih2 ⊢
      simp [writesTo, whileSelected, h3, ih1, ih2]

/-- C15 (chip-select framing).  With positive physical extents, an allocated
buffer and the chip select on a pin of its own, every `clearDisplay()` and every
`refresh()` succeeds and appends to the pin log a trace whose first event is
chip select high, whose last event is chip select low, and whose events in
between are writes to the clock or the data pin only.  The chip-select pin is
written exactly twice, and every clock and data write happens while chip select
is high, whatever its level before the call. -/
theorem chipSelect_framing (c : BusCall) (s : Adafruit_SharpMem) (buf : List Nat)
    (hsize : PhysicalSize s) (hbuf : Allocated s buf)
    (hss : s._ss ≠ s._clk ∧ s._ss ≠ s._mosi) :
    ∃ s1 mid, c.run s = some s1 ∧
      s1.bus = s.bus ++ PinEvent.write s._ss HIGH :: (mid ++ [PinEvent.write s._ss LOW]) ∧
      (∀ e ∈ mid, ∃ level,
        e = PinEvent.write s._clk level ∨ e = PinEvent.write s._mosi level) ∧
      writesTo s._ss (s1.bus.drop s.bus.length) = 2 ∧
      ∀ sel, whileSelected s._ss sel (s1.bus.drop s.bus.length) = true := by
  have hframe : ∀ ws : List WireByte,
      writesTo s._ss (transaction s ws) = 2 ∧
      ∀ sel, whileSelected s._ss sel (transaction s ws) = true := by
    intro ws
    obtain ⟨h1, h2⟩ := framed_events s._ss s._clk s._mosi hss.1 hss.2
      [PinEvent.write s._ss LOW] (wireBytes s._clk s._mosi ws)
      (mem_wireBytes s._clk s._mosi ws)
    have h3 : transaction s ws = PinEvent.write s._ss HIGH ::
        (wireBytes s._clk s._mosi ws ++ [PinEvent.write s._ss LOW]) := by
      simp [transaction]
    rw [h3]
    refine ⟨?_, ?_⟩
    · rw [writesTo, if_pos rfl, h1]
      simp [writesTo]
    · intro sel
      rw [whileSelected, if_pos rfl, h2]
      simp [whileSelected]
  obtain ⟨hdiv, hnn, hlen⟩ := allocated_memset s buf hsize hbuf
  cases c with
  | clearDisplay =>
    refine ⟨_, wireBytes s._clk s._mosi (specClear s._sharpmem_vcom),
      clearDisplay_eq s buf hbuf.1 (by rw [hdiv]; exact hnn) (by rw [hdiv]; exact hlen),
      by simp [transaction], mem_wireBytes _ _ _, ?_, ?_⟩
    · simp only [emit_proj_bus, TOGGLE_VCOM_proj_bus, withBuffer_proj_bus, List.drop_left]
      exact (hframe _).1
    · simp only [emit_proj_bus, TOGGLE_VCOM_proj_bus, withBuffer_proj_bus, List.drop_left]
      exact (hframe _).2
  | refresh =>
    refine ⟨_, wireBytes s._clk s._mosi (specRefresh s.WIDTH s.HEIGHT s._sharpmem_vcom buf),
      refresh_eq s buf hbuf.1 (by have := hsize.1; omega) (allocated_rows s buf hsize hbuf),
      by simp [transaction], mem_wireBytes _ _ _, ?_, ?_⟩
    · simp only [emit_proj_bus, TOGGLE_VCOM_proj_bus, List.drop_left]
      exact (hframe _).1
    · simp only [emit_proj_bus, TOGGLE_VCOM_proj_bus, List.drop_left]
      exact (hframe _).2

/-- Witness for C15: a refresh of an 8 x 2 panel with buffer `[0xAA, 0x55]` on
pins 13, 11 and 10. -/
theorem chipSelect_framing_witness :
    PhysicalSize (sample 8 2 0 (some [0xAA, 0x55])) ∧
    Allocated (sample 8 2 0 (some [0xAA, 0x55])) [0xAA, 0x55] ∧
    ((sample 8 2 0 (some [0xAA, 0x55]))._ss ≠ (sample 8 2 0 (some [0xAA, 0x55]))._clk ∧
      (sample 8 2 0 (some [0xAA, 0x55]))._ss ≠ (sample 8 2 0 (some [0xAA, 0x55]))._mosi) ∧
    ∃ s1 mid, refresh (sample 8 2 0 (some [0xAA, 0x55])) = some s1 ∧
      s1.bus = PinEvent.write 10 HIGH :: (mid ++ [PinEvent.write 10 LOW]) ∧
      writesTo 10 s1.bus = 2 := by
  refine ⟨by decide, by decide, by decide, ?_⟩
  obtain ⟨s1, mid, h1, h2, _, h4, _⟩ := chipSelect_framing BusCall.refresh
    (sample 8 2 0 (some [0xAA, 0x55])) [0xAA, 0x55] (by decide) (by decide) (by decide)
  exact ⟨s1, mid, h1, h2, h4⟩

/-! ## Rows of a refresh -/

theorem flatMap_range_split {α : Type} (f : Nat → List α) (n i : Nat) (hi : i < n) :
    (List.range n).flatMap f =
      (List.range i).flatMap f ++ f i ++
        (List.range (n - i - 1)).flatMap fun m => f (i + 1 + m) := by
  have hn : n = i + ((n - i - 1) + 1) := by omega
  conv_lhs => rw [hn]
  rw [List.range_add, List.flatMap_append, List.flatMap_map, flatMap_range_succ,
    List.append_assoc]
  simp [Nat.add_assoc, Nat.add_comm 1]

theorem specRow_length (q : Nat) (buf : List Nat) (i : Nat) :
    (specRow q buf i).length = q + 2 := by
  simp [specRow]

theorem specRows_length (q : Nat) (buf : List Nat) (n : Nat) :
    ((List.range n).flatMap (specRow q buf)).length = n * (q + 2) := by
  induction n with
  | zero => simp
  | succ n ih =>
    rw [List.range_succ, List.flatMap_append, List.length_append, ih, List.flatMap_singleton,
      specRow_length]
    ring

/-- C16 (row addressing).  For positive physical extents, an allocated buffer
and every row index `i` from 0 to `HEIGHT - 1`, the refresh transmits rows of
`WIDTH/8 + 2` bytes after the command byte, and the first byte of row `i`, at
position `1 + i * (WIDTH/8 + 2)` of the transmitted sequence, is sent least
significant bit first and has the value `(i + 1) mod 256`: the 1-based row
address `i + 1` as long as it fits the 8-bit variable `current_line`. -/
theorem row_address (s : Adafruit_SharpMem) (buf : List Nat) (i : Nat)
    (hsize : PhysicalSize s) (hbuf : Allocated s buf) (hi : (i : Int) < s.HEIGHT) :
    ∃ s1, refresh s = some s1 ∧
      s1.bus = s.bus ++ transaction s (specRefresh s.WIDTH s.HEIGHT s._sharpmem_vcom buf) ∧
      (specRefresh s.WIDTH s.HEIGHT s._sharpmem_vcom buf)[1 + i * ((s.WIDTH / 8).toNat + 2)]? =
        some (WireByte.lsb ((i + 1) % 256)) ∧
      (i < 255 →
        (specRefresh s.WIDTH s.HEIGHT s._sharpmem_vcom buf)[1 + i * ((s.WIDTH / 8).toNat + 2)]? =
          some (WireByte.lsb (i + 1))) := by
  have hidx : (specRefresh s.WIDTH s.HEIGHT s._sharpmem_vcom buf)[1 +
      i * ((s.WIDTH / 8).toNat + 2)]? = some (WireByte.lsb ((i + 1) % 256)) := by
    have hi1 : i < s.HEIGHT.toNat := by omega
    rw [specRefresh, Nat.add_comm 1, List.cons_append, List.getElem?_cons_succ,
      flatMap_range_split _ _ i hi1, List.append_assoc, List.append_assoc,
      List.getElem?_append_right (by rw [specRows_length]),
      specRows_length, Nat.sub_self]
    simp [specRow]
  refine ⟨_, refresh_eq s buf hbuf.1 (by have := hsize.1; omega)
    (allocated_rows s buf hsize hbuf), by simp, hidx, ?_⟩
  intro h255
  rw [hidx, Nat.mod_eq_of_lt (by omega)]

/-- Witness for C16: row 1 of an 8 x 2 panel; its address byte `0x02` is byte 4
of the sequence. -/
theorem row_address_witness :
    PhysicalSize (sample 8 2 0 (some [0xAA, 0x55])) ∧
    Allocated (sample 8 2 0 (some [0xAA, 0x55])) [0xAA, 0x55] ∧
    (((1 : Nat) : Int) < (sample 8 2 0 (some [0xAA, 0x55])).HEIGHT) ∧
    (1 < 255) ∧
    (specRefresh 8 2 0x40 [0xAA, 0x55])[4]? = some (WireByte.lsb 0x02) := by
  obtain ⟨_, _, _, _, h⟩ := row_address (sample 8 2 0 (some [0xAA, 0x55])) [0xAA, 0x55] 1
    (by decide) (by decide) (by decide)
  exact ⟨by decide, by decide, by decide, by decide, h (by decide)⟩

theorem wireByte_lsb_mod (clk mosi n : Nat) :
    wireByte clk mosi (WireByte.lsb (n % 256)) = wireByte clk mosi (WireByte.lsb n) := by
  have hmod : ∀ k ∈ List.range 8, (n % 256).testBit k = n.testBit k := by
    intro k hk
    have h1 : k < 8 := List.mem_range.1 hk
    rw [show (256 : Nat) = 2 ^ 8 from rfl, Nat.testBit_mod_two_pow]
    simp [h1]
  simp only [wireByte, WireByte.bits, List.map_congr_left hmod]

theorem wireByte_zero (clk mosi : Nat) :
    wireByte clk mosi (WireByte.msb 0x00) = wireByte clk mosi (WireByte.lsb 0x00) := rfl

theorem wireBytes_flatMap {α : Type} (clk mosi : Nat) (l : List α) (f : α → List WireByte) :
    wireBytes clk mosi (l.flatMap f) = l.flatMap fun a => wireBytes clk mosi (f a) := by
  simp [wireBytes, List.flatMap_assoc]

theorem wireBytes_specRefreshSteps (clk mosi : Nat) (W H : Int) (vcom : Nat) (buf : List Nat) :
    wireBytes clk mosi (specRefreshSteps W H vcom buf) =
      wireBytes clk mosi (specRefresh W H vcom buf) := by
  have hnil : wireBytes clk mosi [] = [] := rfl
  simp only [specRefreshSteps, specRefresh, specRow, wireBytes_append, wireBytes_cons,
    wireBytes_flatMap, hnil, List.nil_append, List.append_nil, List.append_assoc,
    List.singleton_append, List.cons_append, wireByte_lsb_mod, wireByte_zero,
    SHARPMEM_BIT_WRITECMD]

/-- C17 (end-of-line trailer equivalence).  In every state `sendbyte(0x00)` and
`sendbyteLSB(0x00)` produce the same state, hence the same pin-event trace.
For positive physical extents and every content of an allocated buffer, the
`refresh()` of the code succeeds and appends to the pin log exactly the trace
of the step sequence of the specification, which sends the trailer of each row
with `transmitLSB(0x00)`, between chip select high and chip select low. -/
theorem trailer_equivalence (s : Adafruit_SharpMem) (buf : List Nat)
    (hsize : PhysicalSize s) (hbuf : Allocated s buf) :
    sendbyte s 0x00 = sendbyteLSB s 0x00 ∧
    ∃ s1, refresh s = some s1 ∧
      s1.bus = s.bus ++
        transaction s (specRefreshSteps s.WIDTH s.HEIGHT s._sharpmem_vcom buf) := by
  refine ⟨by rw [sendbyte_eq, sendbyteLSB_eq, wireByte_zero], _,
    refresh_eq s buf hbuf.1 (by have := hsize.1; omega) (allocated_rows s buf hsize hbuf), ?_⟩
  simp only [emit_proj_bus, TOGGLE_VCOM_proj_bus, transaction, wireBytes_specRefreshSteps]

/-- Witness for C17: an 8 x 2 panel with buffer `[0xAA, 0x55]`; the steps of
the specification end both rows with an LSB-first zero byte. -/
theorem trailer_equivalence_witness :
    PhysicalSize (sample 8 2 0 (some [0xAA, 0x55])) ∧
    Allocated (sample 8 2 0 (some [0xAA, 0x55])) [0xAA, 0x55] ∧
    specRefreshSteps 8 2 0x40 [0xAA, 0x55] =
      [WireByte.msb 0xC0, WireByte.lsb 0x01, WireByte.lsb 0xAA, WireByte.lsb 0x00,
       WireByte.lsb 0x02, WireByte.lsb 0x55, WireByte.lsb 0x00, WireByte.msb 0x00] ∧
    ∃ s1, refresh (sample 8 2 0 (some [0xAA, 0x55])) = some s1 ∧
      s1.bus = transaction (sample 8 2 0 (some [0xAA, 0x55]))
        (specRefreshSteps 8 2 0x40 [0xAA, 0x55]) := by
  obtain ⟨_, s1, h1, h2⟩ := trailer_equivalence (sample 8 2 0 (some [0xAA, 0x55]))
    [0xAA, 0x55] (by decide) (by decide)
  exact ⟨by decide, by decide, by decide, s1, h1, h2⟩

/-! ## One pixel, one bit -/

theorem specTransform_injective (W H : Int) (r : Nat) (x y x1 y1 : Int)
    (h : specTransform W H r x1 y1 = specTransform W H r x y) : x1 = x ∧ y1 = y := by
  rcases r with _ | _ | _ | r <;>
    simp only [specTransform, Prod.mk.injEq] at h <;> omega

theorem address_injective (W H w px py px1 py1 : Int) (hW : W = 8 * w)
    (hpx : 0 ≤ px ∧ px < W) (hpy : 0 ≤ py ∧ py < H)
    (hpx1 : 0 ≤ px1 ∧ px1 < W)
    (hbyte : (py1 * W + px1) / 8 = (py * W + px) / 8) (hbit : px1 % 8 = px % 8) :
    px1 = px ∧ py1 = py := by
  subst hW
  have h1 : py * (8 * w) = 8 * (py * w) := by ring
  have h2 : py1 * (8 * w) = 8 * (py1 * w) := by ring
  rw [h1, h2] at hbyte
  have hw : 0 ≤ w := by omega
  have hpy_eq : py1 = py := by
    rcases lt_trichotomy py1 py with hlt | heq | hgt
    · have h3 : (py1 + 1) * w ≤ py * w := Int.mul_le_mul_of_nonneg_right (by omega) hw
      have h4 : (py1 + 1) * w = py1 * w + w := by ring
      omega
    · exact heq
    · have h3 : (py + 1) * w ≤ py1 * w := Int.mul_le_mul_of_nonneg_right (by omega) hw
      have h4 : (py + 1) * w = py * w + w := by ring
      omega
  subst hpy_eq
  exact ⟨by omega, rfl⟩

theorem newByte_testBit (b k j v : Nat) (hk : k < 8) (hj : j < 8) (hjk : j ≠ k) :
    (if v ≠ 0 then b ||| 2 ^ k else b &&& (255 - 2 ^ k)).testBit j = b.testBit j := by
  have hkj : ¬ k = j := fun h => hjk h.symm
  split
  · simp [Nat.testBit_or, Nat.testBit_two_pow, hkj]
  · simp [Nat.testBit_and, testBit_clr_mask k j hk hj, hjk]

/-- C18 (single-pixel frame).  When `WIDTH` is a multiple of 8, the map from the
physical `(px, py)` to the byte index `(py*W + px) / 8` and the bit `px mod 8`
is injective on `[0, W) x [0, H)`; so in every rotation two different in-range
logical coordinates address different bits, and `drawPixel(x, y, v)` leaves the
value that `getPixel(x1, y1)` returns unchanged for every other in-range
`(x1, y1)`. -/
theorem single_pixel_frame (s : Adafruit_SharpMem) (buf : List Nat) (x y x1 y1 : Int) (v : Nat)
    (hsize : PhysicalSize s) (hrot : LogicalExtents s) (hbuf : HoldsFrame s buf)
    (h8 : 8 ∣ s.WIDTH)
    (hx : 0 ≤ x ∧ x < s._width) (hy : 0 ≤ y ∧ y < s._height)
    (hx1 : 0 ≤ x1 ∧ x1 < s._width) (hy1 : 0 ≤ y1 ∧ y1 < s._height)
    (hne : (x1, y1) ≠ (x, y)) :
    (∀ px py px1 py1 : Int, 0 ≤ px ∧ px < s.WIDTH → 0 ≤ py ∧ py < s.HEIGHT →
      0 ≤ px1 ∧ px1 < s.WIDTH → 0 ≤ py1 ∧ py1 < s.HEIGHT →
      (py1 * s.WIDTH + px1) / 8 = (py * s.WIDTH + px) / 8 → px1 % 8 = px % 8 →
      px1 = px ∧ py1 = py) ∧
    (specByte s.WIDTH s.HEIGHT s.rotation x1 y1, specBit s.WIDTH s.HEIGHT s.rotation x1 y1) ≠
      (specByte s.WIDTH s.HEIGHT s.rotation x y, specBit s.WIDTH s.HEIGHT s.rotation x y) ∧
    ∃ s1, drawPixel s x y v = some s1 ∧ getPixel s1 x1 y1 = getPixel s x1 y1 := by
  obtain ⟨w, hw⟩ := h8
  have hinj : ∀ px py px1 py1 : Int, 0 ≤ px ∧ px < s.WIDTH → 0 ≤ py ∧ py < s.HEIGHT →
      0 ≤ px1 ∧ px1 < s.WIDTH → 0 ≤ py1 ∧ py1 < s.HEIGHT →
      (py1 * s.WIDTH + px1) / 8 = (py * s.WIDTH + px) / 8 → px1 % 8 = px % 8 →
      px1 = px ∧ py1 = py :=
    fun px py px1 py1 h1 h2 h3 _ h5 h6 =>
      address_injective s.WIDTH s.HEIGHT w px py px1 py1 hw h1 h2 h3 h5 h6
  obtain ⟨_, _, hp1, hp2, hp3, hp4⟩ := rotate_eq_specTransform s x y hsize hrot hx hy
  obtain ⟨_, _, hq1, hq2, hq3, hq4⟩ := rotate_eq_specTransform s x1 y1 hsize hrot hx1 hy1
  obtain ⟨_, hn, _⟩ := byteIndex_in_frame s.WIDTH s.HEIGHT _ _ buf.length
    ⟨hp1, hp2⟩ ⟨hp3, hp4⟩ hbuf.2
  obtain ⟨_, hn1, _⟩ := byteIndex_in_frame s.WIDTH s.HEIGHT _ _ buf.length
    ⟨hq1, hq2⟩ ⟨hq3, hq4⟩ hbuf.2
  have hdiff : (specByte s.WIDTH s.HEIGHT s.rotation x1 y1,
      specBit s.WIDTH s.HEIGHT s.rotation x1 y1) ≠
      (specByte s.WIDTH s.HEIGHT s.rotation x y, specBit s.WIDTH s.HEIGHT s.rotation x y) := by
    intro heq
    simp only [Prod.mk.injEq, specByte, specBit] at heq
    obtain ⟨h1, h2⟩ := hinj _ _ _ _ ⟨hp1, hp2⟩ ⟨hp3, hp4⟩ ⟨hq1, hq2⟩ ⟨hq3, hq4⟩
      (by omega) (by omega)
    obtain ⟨h3, h4⟩ := specTransform_injective s.WIDTH s.HEIGHT s.rotation x y x1 y1
      (Prod.ext h1 h2)
    exact hne (by rw [h3, h4])
  refine ⟨hinj, hdiff, ?_⟩
  obtain ⟨b, hb, hlt, hk, hdraw, _⟩ := pixel_access s buf x y v hsize hrot hbuf hx hy
  obtain ⟨b1, hb1, _, hk1, _, hget⟩ := pixel_access s buf x1 y1 v hsize hrot hbuf hx1 hy1
  obtain ⟨b2, hb2, _, _, _, hget1⟩ := pixel_access
    (s.withBuffer (buf.set (specByte s.WIDTH s.HEIGHT s.rotation x y)
      (if v ≠ 0 then b ||| 2 ^ specBit s.WIDTH s.HEIGHT s.rotation x y
       else b &&& (255 - 2 ^ specBit s.WIDTH s.HEIGHT s.rotation x y))))
    _ x1 y1 v hsize hrot ⟨rfl, by simpa [withBuffer] using hbuf.2⟩ hx1 hy1
  refine ⟨_, hdraw, ?_⟩
  rw [hget, hget1]
  simp only [withBuffer_proj_WIDTH, withBuffer_proj_HEIGHT, withBuffer_proj_rotation] at hb2 ⊢
  by_cases hidx : specByte s.WIDTH s.HEIGHT s.rotation x y =
      specByte s.WIDTH s.HEIGHT s.rotation x1 y1
  · have hkk : specBit s.WIDTH s.HEIGHT s.rotation x1 y1 ≠
        specBit s.WIDTH s.HEIGHT s.rotation x y := by
      intro h
      exact hdiff (by rw [hidx, h])
    rw [← hidx] at hb1 hb2
    rw [List.getElem?_set_self hlt] at hb2
    rw [hb] at hb1
    have e1 := Option.some.inj hb1
    have e2 := Option.some.inj hb2
    have hbits := newByte_testBit b _ _ v hk hk1 hkk
    rw [e2, e1] at hbits
    have hiff : (b2 &&& 2 ^ specBit s.WIDTH s.HEIGHT s.rotation x1 y1 ≠ 0) ↔
        (b1 &&& 2 ^ specBit s.WIDTH s.HEIGHT s.rotation x1 y1 ≠ 0) := by
      rw [and_two_pow_ne_zero, and_two_pow_ne_zero, hbits]
    simp only [hiff]
  · rw [List.getElem?_set_ne hidx, hb1] at hb2
    rw [Option.some.inj hb2]

/-- Witness for C18: a 16 x 8 panel in rotation 1 with buffer bytes `0xA5`;
writing logical (3, 5) leaves logical (3, 6), a bit of the same byte, as it
was. -/
theorem single_pixel_frame_witness :
    PhysicalSize (sample 16 8 1 (some (List.replicate 16 0xA5))) ∧
    LogicalExtents (sample 16 8 1 (some (List.replicate 16 0xA5))) ∧
    HoldsFrame (sample 16 8 1 (some (List.replicate 16 0xA5))) (List.replicate 16 0xA5) ∧
    (8 : Int) ∣ (sample 16 8 1 (some (List.replicate 16 0xA5))).WIDTH ∧
    ((3 : Int), (6 : Int)) ≠ (3, 5) ∧
    specByte 16 8 1 3 6 = specByte 16 8 1 3 5 ∧
    ∃ s1, drawPixel (sample 16 8 1 (some (List.replicate 16 0xA5))) 3 5 0 = some s1 ∧
      getPixel s1 3 6 = getPixel (sample 16 8 1 (some (List.replicate 16 0xA5))) 3 6 :=
  ⟨by decide, by decide, by decide, by decide, by decide, by decide,
    (single_pixel_frame (sample 16 8 1 (some (List.replicate 16 0xA5)))
      (List.replicate 16 0xA5) 3 5 3 6 0 (by decide) (by decide) (by decide) (by decide)
      (by decide) (by decide) (by decide) (by decide) (by decide)).2.2⟩

/-! ## Pixel order on the wire -/

theorem map_range_mul8 {α : Type} (g : Nat → α) (q : Nat) :
    (List.range (8 * q)).map g =
      (List.range q).flatMap fun j => (List.range 8).map fun k => g (8 * j + k) := by
  induction q with
  | zero => simp
  | succ q ih =>
    rw [show 8 * (q + 1) = 8 * q + 8 from by ring, List.range_add, List.map_append, ih,
      List.range_succ q, List.flatMap_append, List.flatMap_singleton, List.map_map]
    rfl

theorem specRefresh_split (W H : Int) (vcom : Nat) (buf : List Nat) (i : Nat)
    (hi : i < H.toNat) :
    specRefresh W H vcom buf =
      (WireByte.msb (0x80 ||| vcom) :: (List.range i).flatMap (specRow (W / 8).toNat buf) ++
        [WireByte.lsb ((i + 1) % 256)]) ++
      rowData (W / 8).toNat buf i ++
      (WireByte.msb 0x00 ::
        ((List.range (H.toNat - i - 1)).flatMap fun m => specRow (W / 8).toNat buf (i + 1 + m)) ++
        [WireByte.msb 0x00]) := by
  have hrow : specRow (W / 8).toNat buf i = WireByte.lsb ((i + 1) % 256) ::
      (rowData (W / 8).toNat buf i ++ [WireByte.msb 0x00]) := rfl
  rw [specRefresh, flatMap_range_split _ _ i hi, hrow]
  simp [List.append_assoc]

/-- The value `getPixel` returns in rotation 0 for bit `k` of byte `j` of row
`i`. -/
theorem getPixel_row (s : Adafruit_SharpMem) (buf : List Nat) (i j k : Nat)
    (hsize : PhysicalSize s) (hrot : s.rotation = 0) (hext : LogicalExtents s)
    (hbuf : Allocated s buf) (h8 : 8 ∣ s.WIDTH) (hi : (i : Int) < s.HEIGHT)
    (hj : j < (s.WIDTH / 8).toNat) (hk : k < 8) :
    getPixel s ((8 * j + k : Nat) : Int) (i : Int) =
      some (if (buf.getD ((s.WIDTH / 8).toNat * i + j) 0).testBit k then 1 else 0) := by
  obtain ⟨w, hw⟩ := h8
  obtain ⟨hr, hwid, hhei⟩ := hext
  rw [hrot] at hwid hhei
  simp only [Nat.zero_mod, if_true] at hwid hhei
  have hw0 : 0 < w := by have := hsize.1; omega
  have hq : ((s.WIDTH / 8).toNat : Int) = w := by
    rw [Int.toNat_of_nonneg (by omega)]; omega
  have hjw : (j : Int) < w := by omega
  have hframe : HoldsFrame s buf := by
    refine ⟨hbuf.1, ?_⟩
    have h1 := hbuf.2
    have h2 : s.WIDTH * s.HEIGHT = 8 * (w * s.HEIGHT) := by rw [hw]; ring
    omega
  have hx : (0 : Int) ≤ ((8 * j + k : Nat) : Int) ∧ ((8 * j + k : Nat) : Int) < s._width := by
    rw [hwid]; push_cast; omega
  have hy : (0 : Int) ≤ (i : Int) ∧ (i : Int) < s._height := by
    rw [hhei]; omega
  obtain ⟨b, hb, _, _, _, hget⟩ := pixel_access s buf _ _ 0 hsize
    ⟨hr, by rw [hrot]; simpa using hwid, by rw [hrot]; simpa using hhei⟩ hframe hx hy
  have hbyte : specByte s.WIDTH s.HEIGHT s.rotation ((8 * j + k : Nat) : Int) (i : Int) =
      (s.WIDTH / 8).toNat * i + j := by
    rw [hrot]
    simp only [specByte, specTransform]
    have h3 : (i : Int) * s.WIDTH = 8 * ((i : Int) * w) := by rw [hw]; ring
    have h4 : (((s.WIDTH / 8).toNat * i + j : Nat) : Int) = (i : Int) * w + j := by
      push_cast; rw [hq]; ring
    rw [h3]
    push_cast
    omega
  have hbit : specBit s.WIDTH s.HEIGHT s.rotation ((8 * j + k : Nat) : Int) (i : Int) = k := by
    rw [hrot]
    simp only [specBit, specTransform]
    push_cast
    omega
  rw [hbyte] at hb
  rw [hget, hbit]
  have hd : buf.getD ((s.WIDTH / 8).toNat * i + j) 0 = b := by
    rw [List.getD_eq_getElem?_getD, hb]; rfl
  rw [hd]
  by_cases hbk : b.testBit k = true
  · rw [if_pos ((and_two_pow_ne_zero _ _).2 hbk), if_pos hbk]
  · rw [if_neg (fun h => hbk ((and_two_pow_ne_zero _ _).1 h)), if_neg hbk]

/-- C19 (wire pixel order).  In rotation 0, with `WIDTH` a multiple of 8,
clock and data on different pins and an allocated buffer of any content, the
pin log of `refresh()` contains, for every row `i`, the data bytes of the row
right after the row-address byte and right before the trailer; the `WIDTH`
data-line levels the display latches at the rising clock edges of these bytes
are, in order, `getPixel(0, i)`, `getPixel(1, i)`, ..., `getPixel(WIDTH-1, i)`,
whatever the clock and data levels before the first of them. -/
theorem wire_pixel_order (s : Adafruit_SharpMem) (buf : List Nat) (i : Nat)
    (hsize : PhysicalSize s) (hrot : s.rotation = 0) (hext : LogicalExtents s)
    (hbuf : Allocated s buf) (h8 : 8 ∣ s.WIDTH) (hpins : s._clk ≠ s._mosi)
    (hi : (i : Int) < s.HEIGHT) :
    ∃ s1, refresh s = some s1 ∧
      s1.bus = s.bus ++
        (PinEvent.write s._ss HIGH :: wireBytes s._clk s._mosi
          (WireByte.msb (0x80 ||| s._sharpmem_vcom) ::
            (List.range i).flatMap (specRow (s.WIDTH / 8).toNat buf) ++
            [WireByte.lsb ((i + 1) % 256)])) ++
        wireBytes s._clk s._mosi (rowData (s.WIDTH / 8).toNat buf i) ++
        (wireBytes s._clk s._mosi (WireByte.msb 0x00 ::
            ((List.range (s.HEIGHT.toNat - i - 1)).flatMap fun m =>
              specRow (s.WIDTH / 8).toNat buf (i + 1 + m)) ++
            [WireByte.msb 0x00]) ++
          [PinEvent.write s._ss LOW]) ∧
      ∀ c d : Bool,
        (risingEdgeData s._clk s._mosi c d
          (wireBytes s._clk s._mosi (rowData (s.WIDTH / 8).toNat buf i))).map
            (fun level => some (if level then 1 else 0)) =
          (List.range s.WIDTH.toNat).map fun (x : Nat) => getPixel s (x : Int) (i : Int) := by
  have hi1 : i < s.HEIGHT.toNat := by omega
  refine ⟨_, refresh_eq s buf hbuf.1 (by have := hsize.1; omega)
    (allocated_rows s buf hsize hbuf), ?_, ?_⟩
  · rw [emit_proj_bus, TOGGLE_VCOM_proj_bus, specRefresh_split _ _ _ _ i hi1, transaction,
      wireBytes_append, wireBytes_append]
    simp [List.append_assoc]
  · intro c d
    obtain ⟨c1, d1, hd⟩ := risingEdgeData_wireBytes s._clk s._mosi hpins []
      (rowData (s.WIDTH / 8).toNat buf i) c d
    rw [List.append_nil] at hd
    have hW : s.WIDTH.toNat = 8 * (s.WIDTH / 8).toNat := by
      obtain ⟨w, hw⟩ := h8
      have := hsize.1
      omega
    rw [hd, hW, map_range_mul8]
    simp only [risingEdgeData, List.append_nil, rowData, List.flatMap_map, List.map_flatMap,
      WireByte.bits, List.map_map, Function.comp_def]
    apply List.flatMap_congr
    intro j hj
    apply List.map_congr_left
    intro k hk
    rw [getPixel_row s buf i j k hsize hrot hext hbuf h8 hi (List.mem_range.1 hj)
      (List.mem_range.1 hk)]

/-- Witness for C19: row 1 of an 8 x 2 panel with buffer `[0xAA, 0x55]`: the
byte `0x55` reaches the wire as the pixels 1, 0, 1, 0, 1, 0, 1, 0. -/
theorem wire_pixel_order_witness :
    PhysicalSize (sample 8 2 0 (some [0xAA, 0x55])) ∧
    (sample 8 2 0 (some [0xAA, 0x55])).rotation = 0 ∧
    LogicalExtents (sample 8 2 0 (some [0xAA, 0x55])) ∧
    Allocated (sample 8 2 0 (some [0xAA, 0x55])) [0xAA, 0x55] ∧
    (8 : Int) ∣ (sample 8 2 0 (some [0xAA, 0x55])).WIDTH ∧
    (sample 8 2 0 (some [0xAA, 0x55]))._clk ≠ (sample 8 2 0 (some [0xAA, 0x55]))._mosi ∧
    (((1 : Nat) : Int) < (sample 8 2 0 (some [0xAA, 0x55])).HEIGHT) ∧
    (List.range 8).map (fun (x : Nat) => getPixel (sample 8 2 0 (some [0xAA, 0x55])) (x : Int) 1) =
      [some 1, some 0, some 1, some 0, some 1, some 0, some 1, some 0] ∧
    (risingEdgeData 13 11 LOW HIGH (wireBytes 13 11 (rowData 1 [0xAA, 0x55] 1))).map
      (fun level => some (if level then 1 else 0)) =
      (List.range 8).map fun (x : Nat) =>
        getPixel (sample 8 2 0 (some [0xAA, 0x55])) (x : Int) 1 := by
  obtain ⟨_, _, _, h⟩ := wire_pixel_order (sample 8 2 0 (some [0xAA, 0x55])) [0xAA, 0x55] 1
    (by decide) (by decide) (by decide) (by decide) (by decide) (by decide) (by decide)
  exact ⟨by decide, by decide, by decide, by decide, by decide, by decide, by decide,
    by decide, h LOW HIGH⟩

/-! ## The polarity value in reachable states -/

/-- The state `drawPixel` returns is the state it was given, up to one byte of
the buffer. -/
theorem drawPixel_shape (s s2 : Adafruit_SharpMem) (x y : Int) (v : Nat)
    (h : drawPixel s x y v = some s2) :
    s2 = s ∨ ∃ buf i b, s.sharpmem_buffer = some buf ∧ s2 = s.withBuffer (buf.set i b) := by
  have hw : ∀ (i : Int) (b : Nat), writeByte s i b = some s2 →
      ∃ buf i b, s.sharpmem_buffer = some buf ∧ s2 = s.withBuffer (buf.set i b) := by
    intro i b hwb
    unfold writeByte at hwb
    cases hbuf : s.sharpmem_buffer with
    | none => simp [hbuf] at hwb
    | some buf =>
      simp only [hbuf] at hwb
      split at hwb
      · exact ⟨buf, _, _, rfl, (Option.some.inj hwb).symm⟩
      · exact absurd hwb (by simp)
  unfold drawPixel at h
  split at h
  · exact Or.inl (Option.some.inj h).symm
  · right
    split at h
    · obtain ⟨b, _, hb⟩ := Option.bind_eq_some.1 h
      exact hw _ _ hb
    · obtain ⟨b, _, hb⟩ := Option.bind_eq_some.1 h
      exact hw _ _ hb

theorem drawPixel_ready (s s2 : Adafruit_SharpMem) (x y : Int) (v : Nat)
    (hr : Ready s) (h : drawPixel s x y v = some s2) : Ready s2 := by
  rcases drawPixel_shape s s2 x y v h with rfl | ⟨buf, i, b, hbuf, rfl⟩
  · exact hr
  · obtain ⟨hsize, hpins, ⟨buf0, hb0, hlen⟩, hv⟩ := hr
    rw [hbuf] at hb0
    have e := Option.some.inj hb0
    subst e
    exact ⟨hsize, hpins, ⟨_, rfl, by simpa using hlen⟩, hv⟩

theorem call_ready (c : Call) (s s2 : Adafruit_SharpMem) (hr : Ready s)
    (h : c.run s = some s2) : Ready s2 := by
  cases c with
  | drawPixel x y v => exact drawPixel_ready s s2 x y v hr h
  | getPixel x y =>
    obtain ⟨_, _, e⟩ := Option.map_eq_some'.1 h
    rw [← e]; exact hr
  | clearDisplay =>
    obtain ⟨s1, h1, hr1, _⟩ := call_spec BusCall.clearDisplay s hr
    have e : s1 = s2 := Option.some.inj (h1.symm.trans h)
    rw [← e]; exact hr1
  | refresh =>
    obtain ⟨s1, h1, hr1, _⟩ := call_spec BusCall.refresh s hr
    have e : s1 = s2 := Option.some.inj (h1.symm.trans h)
    rw [← e]; exact hr1

theorem runAll_ready (calls : List Call) : ∀ (s s1 : Adafruit_SharpMem), Ready s →
    runAll calls s = some s1 → Ready s1 := by
  induction calls with
  | nil =>
    intro s s1 hr h
    rw [← Option.some.inj h]; exact hr
  | cons c cs ih =>
    intro s s1 hr h
    obtain ⟨s2, h2, h3⟩ := Option.bind_eq_some.1 h
    exact ih s2 s1 (call_ready c s s2 hr h2) h3

/-- C20 (polarity state invariant).  After a successful `begin()` on a driver
with positive physical extents and three different pins, in every state reached
by a sequence of `drawPixel`, `getPixel`, `clearDisplay` and `refresh` calls the
stored polarity value is `0x00` or `0x40`.  In such a state `clearDisplay()`
succeeds with a command byte of `0x20` or `0x60`, `refresh()` succeeds with a
command byte of `0x80` or `0xC0`, and neither `drawPixel` nor `getPixel`
changes the polarity value. -/
theorem polarity_invariant (s s0 s1 : Adafruit_SharpMem) (malloc : Nat → Option (List Nat))
    (calls : List Call)
    (hsize : PhysicalSize s) (hpins : DistinctPins s)
    (hmalloc : ∀ n blk, malloc n = some blk → blk.length = n)
    (hbegin : begin s malloc = (true, s0)) (hrun : runAll calls s0 = some s1) :
    (s1._sharpmem_vcom = 0x00 ∨ s1._sharpmem_vcom = 0x40) ∧
    (∃ s2, clearDisplay s1 = some s2 ∧
      commandByte s1._clk s1._mosi (s2.bus.drop s1.bus.length) = 0x20 ||| s1._sharpmem_vcom ∧
      (commandByte s1._clk s1._mosi (s2.bus.drop s1.bus.length) = 0x20 ∨
        commandByte s1._clk s1._mosi (s2.bus.drop s1.bus.length) = 0x60)) ∧
    (∃ s2, refresh s1 = some s2 ∧
      commandByte s1._clk s1._mosi (s2.bus.drop s1.bus.length) = 0x80 ||| s1._sharpmem_vcom ∧
      (commandByte s1._clk s1._mosi (s2.bus.drop s1.bus.length) = 0x80 ∨
        commandByte s1._clk s1._mosi (s2.bus.drop s1.bus.length) = 0xC0)) ∧
    (∀ x y v s2, drawPixel s1 x y v = some s2 → s2._sharpmem_vcom = s1._sharpmem_vcom) ∧
    (∀ x y s2, (Call.getPixel x y).run s1 = some s2 →
      s2._sharpmem_vcom = s1._sharpmem_vcom) := by
  obtain ⟨hr0, _⟩ := begin_ready s s0 malloc hsize hpins hmalloc hbegin
  have hr1 := runAll_ready calls s0 s1 hr0 hrun
  obtain ⟨hsize1, hpins1, ⟨buf, hbuf⟩, hv⟩ := hr1
  obtain ⟨hdiv, hnn, hlen⟩ := allocated_memset s1 buf hsize1 hbuf
  refine ⟨hv, ⟨_, clearDisplay_eq s1 buf hbuf.1 (by rw [hdiv]; exact hnn)
    (by rw [hdiv]; exact hlen), ?_⟩, ⟨_, refresh_eq s1 buf hbuf.1 (by have := hsize1.1; omega)
    (allocated_rows s1 buf hsize1 hbuf), ?_⟩, ?_, ?_⟩
  · simp only [emit_proj_bus, TOGGLE_VCOM_proj_bus, withBuffer_proj_bus, List.drop_left,
      specClear]
    rw [commandByte_transaction s1 hpins1, ofBitsMSB_bits_msb]
    rcases hv with h | h <;> rw [h] <;> decide
  · simp only [emit_proj_bus, TOGGLE_VCOM_proj_bus, List.drop_left, specRefresh,
      List.cons_append]
    rw [commandByte_transaction s1 hpins1, ofBitsMSB_bits_msb]
    rcases hv with h | h <;> rw [h] <;> decide
  · intro x y v s2 h
    rcases drawPixel_shape s1 s2 x y v h with rfl | ⟨_, _, _, _, rfl⟩ <;> rfl
  · intro x y s2 h
    obtain ⟨_, _, e⟩ := Option.map_eq_some'.1 h
    rw [← e]

/-- Witness for C20: an 8 x 2 panel, an allocator that returns zeroed blocks,
and the calls `drawPixel(1, 1, 1)`, `refresh()`, `getPixel(1, 1)`: the state
reached stores the polarity value `0x00`, and a `clearDisplay()` there sends
the command byte `0x20`. -/
theorem polarity_invariant_witness :
    PhysicalSize (sample 8 2 0 none) ∧ DistinctPins (sample 8 2 0 none) ∧
    (∀ n blk, (fun n => some (List.replicate n 0)) n = some blk → blk.length = n) ∧
    ∃ s0 s1, begin (sample 8 2 0 none) (fun n => some (List.replicate n 0)) = (true, s0) ∧
      runAll [Call.drawPixel 1 1 1, Call.refresh, Call.getPixel 1 1] s0 = some s1 ∧
      s1._sharpmem_vcom = 0x00 ∧
      s1.sharpmem_buffer = some [0, 2] ∧
      ∃ s2, clearDisplay s1 = some s2 ∧
        commandByte s1._clk s1._mosi (s2.bus.drop s1.bus.length) = 0x20 := by
  have hmalloc : ∀ n blk, (fun n => some (List.replicate n 0)) n = some blk → blk.length = n := by
    intro n blk h
    simp only [Option.some.injEq] at h
    rw [← h, List.length_replicate]
  have hbegin := begin_some (sample 8 2 0 none) (fun n => some (List.replicate n 0))
    (List.replicate 2 0) rfl
  have hsome : ((runAll [Call.drawPixel 1 1 1, Call.refresh, Call.getPixel 1 1]
      { sample 8 2 0 none with
        _width := 8, _height := 2, rotation := 0,
        _sharpmem_vcom := SHARPMEM_BIT_VCOM, sharpmem_buffer := some (List.replicate 2 0),
        bus := [PinEvent.write 10 HIGH, PinEvent.write 13 LOW, PinEvent.write 11 HIGH,
          PinEvent.mode 10, PinEvent.mode 13, PinEvent.mode 11] }).map
      fun t => (t._sharpmem_vcom, t.sharpmem_buffer)) = some (0x00, some [0, 2]) := by
    set_option maxRecDepth 100000 in rfl
  obtain ⟨s1, hs1, hval⟩ := Option.map_eq_some'.1 hsome
  obtain ⟨_, ⟨s2, h2, h3, _⟩, _⟩ := polarity_invariant (sample 8 2 0 none) _ s1
    (fun n => some (List.replicate n 0)) [Call.drawPixel 1 1 1, Call.refresh, Call.getPixel 1 1]
    (by decide) (by decide) hmalloc hbegin hs1
  have hv : s1._sharpmem_vcom = 0x00 := (Prod.mk.inj hval).1
  refine ⟨by decide, by decide, hmalloc, _, s1, hbegin, hs1, hv, (Prod.mk.inj hval).2, s2, h2, ?_⟩
  rw [h3, hv]
  decide

end Adafruit_SharpMem
